import Mathlib

/-!
Verification of the XMSS[MT] signature engine (go-xmssmt).

This file shallowly embeds the Go sources of the repository in Lean 4 and
proves properties of the embedding.  Conventions:

* Go byte slices are modelled as `List Nat`, each element a byte value
  (`< 256` where it matters); machine integers are `Nat` with explicit
  `% 2 ^ w` at the places the Go code can overflow.
* The base hash compression functions (SHA-2 / SHAKE) and the xxhash64
  checksum come from external packages and are treated as opaque
  primitives, exactly as the specification's scope section prescribes;
  everything built on top of them (addresses, WOTS+ chains, L-tree,
  Merkle trees, hypertree signing and verification, serialisation and
  the sequence-number state machine) is translated from the repository's
  Go code.
* Where the repository snapshot contains several generations of the same
  function, the newest generation (the one the rest of the current code
  calls) is embedded: `NewContext`, `Signature.UnmarshalBinary`,
  `PrivateKey.getSeqNo`, `PrivateKey.getSubTree`, `PrivateKey.Close`
  are taken from their current versions.
-/

namespace Xmssmt

/-- Big-endian encoding of `x` into `outLen` bytes, from `encodeUint64Into`
in misc.go.  Both branches of the Go code (the `PutUint64` fast path for
lengths divisible by 8 and the byte loop) write byte `i` of the output as
`(x >> (8*(outLen-1-i))) mod 256`; the recursion below produces exactly
that list, peeling the most significant byte first. -/
def encodeUint64 (x : Nat) : Nat → List Nat
  | 0 => []
  | len + 1 => (x / 2 ^ (8 * len)) % 256 :: encodeUint64 x len

/-- Big-endian decoding, from `decodeUint64` in misc.go: the Go loop ors
`in[i] << (8*(len-1-i))` into the result; since every byte is `< 256`
the shifted summands occupy disjoint bit ranges, so the or is a sum. -/
def decodeUint64 : List Nat → Nat
  | [] => 0
  | b :: rest => b * 2 ^ (8 * rest.length) + decodeUint64 rest

/-- Semantics of the Go builtin `copy(buf[off:], src)`: overwrite the
bytes of `buf` starting at `off` with bytes of `src`, never growing the
buffer (`copy` copies `min (len src) (len buf - off)` bytes). -/
def listCopy (buf : List Nat) (off : Nat) (src : List Nat) : List Nat :=
  buf.take off ++ src.take (buf.length - off) ++ buf.drop (off + src.length)

/-! ### Parameters (params.go) -/

/-- HashFunc code `SHA2` (params.go: SHA-256 for small n, SHA-512 else). -/
def SHA2 : Nat := 0
/-- HashFunc code `SHAKE` (params.go). -/
def SHAKE : Nat := 1
/-- HashFunc code `SHAKE256` (params.go, from NIST SP 800-208). -/
def SHAKE256 : Nat := 2
/-- PrfConstruction code `RFC` (params.go). -/
def RFC : Nat := 0
/-- PrfConstruction code `NIST` (params.go). -/
def NIST : Nat := 1

/-- Parameters of an XMSS[MT] instance, from `Params` in params.go.
`func` and `prf` hold the numeric values of the Go enums `HashFunc`
and `PrfConstruction`. -/
structure Params where
  func : Nat
  n : Nat
  fullHeight : Nat
  d : Nat
  wotsW : Nat
  prf : Nat
deriving DecidableEq

/-- Logarithm of the Winternitz parameter, from `Params.WotsLogW`
(params.go).  The Go code panics on other values of `wotsW`; those are
ruled out by `NewContext`, and the embedding returns 0 there. -/
def Params.wotsLogW (p : Params) : Nat :=
  if p.wotsW = 4 then 2 else if p.wotsW = 16 then 4 else
    if p.wotsW = 256 then 8 else 0

/-- Number of main WOTS+ chains, from `Params.WotsLen1` (params.go). -/
def Params.wotsLen1 (p : Params) : Nat := 8 * p.n / p.wotsLogW

/-- Number of WOTS+ checksum chains, from `Params.WotsLen2` (params.go). -/
def Params.wotsLen2 (p : Params) : Nat :=
  if p.wotsW = 4 then 2 else if p.wotsW = 16 then 3 else
    if p.wotsW = 256 then 5 else 0

/-- Total number of WOTS+ chains, from `Params.WotsLen` (params.go). -/
def Params.wotsLen (p : Params) : Nat := p.wotsLen1 + p.wotsLen2

/-- Size in bytes of a WOTS+ signature, from `Params.WotsSignatureSize`. -/
def Params.wotsSignatureSize (p : Params) : Nat := p.wotsLen * p.n

/-- Largest usable signature sequence number, from
`Params.MaxSignatureSeqNo` (params.go): `(1 << FullHeight) - 1`. -/
def Params.maxSignatureSeqNo (p : Params) : Nat := 2 ^ p.fullHeight - 1

/-- Size of a bare serialised subtree, from `Params.BareSubTreeSize`. -/
def Params.bareSubTreeSize (p : Params) : Nat :=
  (2 ^ (p.fullHeight / p.d + 1) - 1) * p.n

/-- Size of a cached subtree record body plus checksum, from
`Params.CachedSubTreeSize` (params.go): bare tree, the WOTS+ signature
over the subtree root, and the trailing 8-byte checksum. -/
def Params.cachedSubTreeSize (p : Params) : Nat :=
  p.bareSubTreeSize + p.wotsSignatureSize + 8

/-- Entry of the algorithm registry, from `regEntry` in params.go. -/
structure RegEntry where
  name : String
  mt : Bool
  oid : Nat
  params : Params
deriving DecidableEq

/-- The registry of named XMSS[MT] algorithms, from `registry` in
params.go (RFC 8391 and NIST SP 800-208 instances). -/
def registry : List RegEntry := [
  RegEntry.mk "XMSSMT-SHA2_20/2_256" true 0x01 (Params.mk SHA2 32 20 2 16 RFC),
  RegEntry.mk "XMSSMT-SHA2_20/4_256" true 0x02 (Params.mk SHA2 32 20 4 16 RFC),
  RegEntry.mk "XMSSMT-SHA2_40/2_256" true 0x03 (Params.mk SHA2 32 40 2 16 RFC),
  RegEntry.mk "XMSSMT-SHA2_40/4_256" true 0x04 (Params.mk SHA2 32 40 4 16 RFC),
  RegEntry.mk "XMSSMT-SHA2_40/8_256" true 0x05 (Params.mk SHA2 32 40 8 16 RFC),
  RegEntry.mk "XMSSMT-SHA2_60/3_256" true 0x06 (Params.mk SHA2 32 60 3 16 RFC),
  RegEntry.mk "XMSSMT-SHA2_60/6_256" true 0x07 (Params.mk SHA2 32 60 6 16 RFC),
  RegEntry.mk "XMSSMT-SHA2_60/12_256" true 0x08 (Params.mk SHA2 32 60 12 16 RFC),
  RegEntry.mk "XMSSMT-SHA2_20/2_512" true 0x09 (Params.mk SHA2 64 20 2 16 RFC),
  RegEntry.mk "XMSSMT-SHA2_20/4_512" true 0x0a (Params.mk SHA2 64 20 4 16 RFC),
  RegEntry.mk "XMSSMT-SHA2_40/2_512" true 0x0b (Params.mk SHA2 64 40 2 16 RFC),
  RegEntry.mk "XMSSMT-SHA2_40/4_512" true 0x0c (Params.mk SHA2 64 40 4 16 RFC),
  RegEntry.mk "XMSSMT-SHA2_40/8_512" true 0x0d (Params.mk SHA2 64 40 8 16 RFC),
  RegEntry.mk "XMSSMT-SHA2_60/3_512" true 0x0e (Params.mk SHA2 64 60 3 16 RFC),
  RegEntry.mk "XMSSMT-SHA2_60/6_512" true 0x0f (Params.mk SHA2 64 60 6 16 RFC),
  RegEntry.mk "XMSSMT-SHA2_60/12_512" true 0x10 (Params.mk SHA2 64 60 12 16 RFC),
  RegEntry.mk "XMSSMT-SHAKE_20/2_256" true 0x11 (Params.mk SHAKE 32 20 2 16 RFC),
  RegEntry.mk "XMSSMT-SHAKE_20/4_256" true 0x12 (Params.mk SHAKE 32 20 4 16 RFC),
  RegEntry.mk "XMSSMT-SHAKE_40/2_256" true 0x13 (Params.mk SHAKE 32 40 2 16 RFC),
  RegEntry.mk "XMSSMT-SHAKE_40/4_256" true 0x14 (Params.mk SHAKE 32 40 4 16 RFC),
  RegEntry.mk "XMSSMT-SHAKE_40/8_256" true 0x15 (Params.mk SHAKE 32 40 8 16 RFC),
  RegEntry.mk "XMSSMT-SHAKE_60/3_256" true 0x16 (Params.mk SHAKE 32 60 3 16 RFC),
  RegEntry.mk "XMSSMT-SHAKE_60/6_256" true 0x17 (Params.mk SHAKE 32 60 6 16 RFC),
  RegEntry.mk "XMSSMT-SHAKE_60/12_256" true 0x18 (Params.mk SHAKE 32 60 12 16 RFC),
  RegEntry.mk "XMSSMT-SHAKE_20/2_512" true 0x19 (Params.mk SHAKE 64 20 2 16 RFC),
  RegEntry.mk "XMSSMT-SHAKE_20/4_512" true 0x1a (Params.mk SHAKE 64 20 4 16 RFC),
  RegEntry.mk "XMSSMT-SHAKE_40/2_512" true 0x1b (Params.mk SHAKE 64 40 2 16 RFC),
  RegEntry.mk "XMSSMT-SHAKE_40/4_512" true 0x1c (Params.mk SHAKE 64 40 4 16 RFC),
  RegEntry.mk "XMSSMT-SHAKE_40/8_512" true 0x1d (Params.mk SHAKE 64 40 8 16 RFC),
  RegEntry.mk "XMSSMT-SHAKE_60/3_512" true 0x1e (Params.mk SHAKE 64 60 3 16 RFC),
  RegEntry.mk "XMSSMT-SHAKE_60/6_512" true 0x1f (Params.mk SHAKE 64 60 6 16 RFC),
  RegEntry.mk "XMSSMT-SHAKE_60/12_512" true 0x20 (Params.mk SHAKE 64 60 12 16 RFC),
  RegEntry.mk "XMSSMT-SHA2_20/2_192" true 0x21 (Params.mk SHA2 24 20 2 16 NIST),
  RegEntry.mk "XMSSMT-SHA2_20/4_192" true 0x22 (Params.mk SHA2 24 20 4 16 NIST),
  RegEntry.mk "XMSSMT-SHA2_40/2_192" true 0x23 (Params.mk SHA2 24 40 2 16 NIST),
  RegEntry.mk "XMSSMT-SHA2_40/4_192" true 0x24 (Params.mk SHA2 24 40 4 16 NIST),
  RegEntry.mk "XMSSMT-SHA2_40/8_192" true 0x25 (Params.mk SHA2 24 40 8 16 NIST),
  RegEntry.mk "XMSSMT-SHA2_60/3_192" true 0x26 (Params.mk SHA2 24 60 3 16 NIST),
  RegEntry.mk "XMSSMT-SHA2_60/6_192" true 0x27 (Params.mk SHA2 24 60 6 16 NIST),
  RegEntry.mk "XMSSMT-SHA2_60/12_192" true 0x28 (Params.mk SHA2 24 60 12 16 NIST),
  RegEntry.mk "XMSSMT-SHAKE256_20/2_256" true 0x29 (Params.mk SHAKE256 32 20 2 16 RFC),
  RegEntry.mk "XMSSMT-SHAKE256_20/4_256" true 0x2a (Params.mk SHAKE256 32 20 4 16 RFC),
  RegEntry.mk "XMSSMT-SHAKE256_40/2_256" true 0x2b (Params.mk SHAKE256 32 40 2 16 RFC),
  RegEntry.mk "XMSSMT-SHAKE256_40/4_256" true 0x2c (Params.mk SHAKE256 32 40 4 16 RFC),
  RegEntry.mk "XMSSMT-SHAKE256_40/8_256" true 0x2d (Params.mk SHAKE256 32 40 8 16 RFC),
  RegEntry.mk "XMSSMT-SHAKE256_60/3_256" true 0x2e (Params.mk SHAKE256 32 60 3 16 RFC),
  RegEntry.mk "XMSSMT-SHAKE256_60/6_256" true 0x2f (Params.mk SHAKE256 32 60 6 16 RFC),
  RegEntry.mk "XMSSMT-SHAKE256_60/12_256" true 0x30 (Params.mk SHAKE256 32 60 12 16 RFC),
  RegEntry.mk "XMSSMT-SHAKE256_20/2_192" true 0x31 (Params.mk SHAKE256 24 20 2 16 NIST),
  RegEntry.mk "XMSSMT-SHAKE256_20/4_192" true 0x32 (Params.mk SHAKE256 24 20 4 16 NIST),
  RegEntry.mk "XMSSMT-SHAKE256_40/2_192" true 0x33 (Params.mk SHAKE256 24 40 2 16 NIST),
  RegEntry.mk "XMSSMT-SHAKE256_40/4_192" true 0x34 (Params.mk SHAKE256 24 40 4 16 NIST),
  RegEntry.mk "XMSSMT-SHAKE256_40/8_192" true 0x35 (Params.mk SHAKE256 24 40 8 16 NIST),
  RegEntry.mk "XMSSMT-SHAKE256_60/3_192" true 0x36 (Params.mk SHAKE256 24 60 3 16 NIST),
  RegEntry.mk "XMSSMT-SHAKE256_60/6_192" true 0x37 (Params.mk SHAKE256 24 60 6 16 NIST),
  RegEntry.mk "XMSSMT-SHAKE256_60/12_192" true 0x38 (Params.mk SHAKE256 24 60 12 16 NIST),
  RegEntry.mk "XMSS-SHA2_10_256" false 0x01 (Params.mk SHA2 32 10 1 16 RFC),
  RegEntry.mk "XMSS-SHA2_16_256" false 0x02 (Params.mk SHA2 32 16 1 16 RFC),
  RegEntry.mk "XMSS-SHA2_20_256" false 0x03 (Params.mk SHA2 32 20 1 16 RFC),
  RegEntry.mk "XMSS-SHA2_10_512" false 0x04 (Params.mk SHA2 64 10 1 16 RFC),
  RegEntry.mk "XMSS-SHA2_16_512" false 0x05 (Params.mk SHA2 64 16 1 16 RFC),
  RegEntry.mk "XMSS-SHA2_20_512" false 0x06 (Params.mk SHA2 64 20 1 16 RFC),
  RegEntry.mk "XMSS-SHAKE_10_256" false 0x07 (Params.mk SHAKE 32 10 1 16 RFC),
  RegEntry.mk "XMSS-SHAKE_16_256" false 0x08 (Params.mk SHAKE 32 16 1 16 RFC),
  RegEntry.mk "XMSS-SHAKE_20_256" false 0x09 (Params.mk SHAKE 32 20 1 16 RFC),
  RegEntry.mk "XMSS-SHAKE_10_512" false 0x0a (Params.mk SHAKE 64 10 1 16 RFC),
  RegEntry.mk "XMSS-SHAKE_16_512" false 0x0b (Params.mk SHAKE 64 16 1 16 RFC),
  RegEntry.mk "XMSS-SHAKE_20_512" false 0x0c (Params.mk SHAKE 64 20 1 16 RFC),
  RegEntry.mk "XMSS-SHA2_10_192" false 0x0d (Params.mk SHA2 24 10 1 16 NIST),
  RegEntry.mk "XMSS-SHA2_16_192" false 0x0e (Params.mk SHA2 24 16 1 16 NIST),
  RegEntry.mk "XMSS-SHA2_20_192" false 0x0f (Params.mk SHA2 24 20 1 16 NIST),
  RegEntry.mk "XMSS-SHAKE256_10_256" false 0x10 (Params.mk SHAKE256 32 10 1 16 RFC),
  RegEntry.mk "XMSS-SHAKE256_16_256" false 0x11 (Params.mk SHAKE256 32 16 1 16 RFC),
  RegEntry.mk "XMSS-SHAKE256_20_256" false 0x12 (Params.mk SHAKE256 32 20 1 16 RFC),
  RegEntry.mk "XMSS-SHAKE256_10_192" false 0x13 (Params.mk SHAKE256 24 10 1 16 NIST),
  RegEntry.mk "XMSS-SHAKE256_16_192" false 0x14 (Params.mk SHAKE256 24 16 1 16 NIST),
  RegEntry.mk "XMSS-SHAKE256_20_192" false 0x15 (Params.mk SHAKE256 24 20 1 16 NIST)]

/-- The w-code of the compressed parameter header, from the switch on
`params.WotsW` in `Params.WriteInto` (params.go). -/
def wCodeOf (w : Nat) : Option Nat :=
  if w = 4 then some 0 else if w = 16 then some 1 else
    if w = 256 then some 2 else none

/-- Serialisation of parameters into the 4-byte compressed header, from
`Params.WriteInto` (params.go).  The Go code builds a `uint32` by oring
bit fields at positions 24, 20, 16, 14, 12, 6 and 0; after the range
guards the fields occupy disjoint bit ranges, so the or is the sum
below.  The resulting word is written out big-endian. -/
def Params.writeInto (p : Params) : Option (List Nat) :=
  if p.n % 8 ≠ 0 then none
  else if p.n > 128 then none
  else if p.func > 2 then none
  else if p.fullHeight > 63 then none
  else if p.d > 63 then none
  else if p.prf ≠ RFC ∧ p.prf ≠ NIST then none
  else match wCodeOf p.wotsW with
    | none => none
    | some wCode =>
      let val := 0xea * 2 ^ 24 + p.prf * 2 ^ 20 + (p.n / 8 - 1) * 2 ^ 16 +
        p.func * 2 ^ 14 + wCode * 2 ^ 12 + p.fullHeight * 2 ^ 6 + p.d
      some (encodeUint64 val 4)

/-- Deserialisation of the 4-byte compressed parameter header, from
`Params.UnmarshalBinary` (params.go).  Bit-field extraction
`(val >> k) mod 2 ^ j` is written with division and remainder. -/
def Params.unmarshalBinary (buf : List Nat) : Option Params :=
  if buf.length ≠ 4 then none
  else
    let val := decodeUint64 buf
    if val / 2 ^ 24 ≠ 0xea then none
    else if val / 2 ^ 21 % 2 ^ 3 ≠ 0 then none
    else
      let comprN := val / 2 ^ 16 % 2 ^ 4
      let wCode := val / 2 ^ 12 % 2 ^ 2
      let rfcCode := val / 2 ^ 20 % 2
      if wCode = 3 then none
      else some
        { func := val / 2 ^ 14 % 2 ^ 2
          n := (comprN + 1) * 8
          fullHeight := val / 2 ^ 6 % 2 ^ 6
          d := val % 2 ^ 6
          wotsW := if wCode = 0 then 4 else if wCode = 1 then 16 else 256
          prf := if rfcCode = 0 then RFC else NIST }

/-! ### Context (part_006 `NewContext`, the current generation) -/

/-- Derived data computed by `NewContext`, from the `Context` struct in
the current api source. -/
structure Context where
  p : Params
  mt : Bool
  treeHeight : Nat
  indexBytes : Nat
  wotsLogW : Nat
  wotsLen1 : Nat
  wotsLen2 : Nat
  wotsLen : Nat
  wotsSigBytes : Nat
  sigBytes : Nat
  pkBytes : Nat
  skBytes : Nat
deriving DecidableEq

/-- Context construction and parameter validation, from the current
`NewContext` (the generation that also guards `D = 0`): it accepts
`N ∈ {16,32,64}`, requires `D ≥ 1` and `D ∣ FullHeight`, and accepts
`WotsW ∈ {4,16,256}`. -/
def NewContext (params : Params) : Option Context :=
  if params.n ≠ 16 ∧ params.n ≠ 32 ∧ params.n ≠ 64 then none
  else if params.d = 0 then none
  else if params.fullHeight % params.d ≠ 0 then none
  else if params.wotsW ≠ 4 ∧ params.wotsW ≠ 16 ∧ params.wotsW ≠ 256 then none
  else
    let mt := params.d > 1
    let treeHeight := params.fullHeight / params.d
    let indexBytes := if mt then (params.fullHeight + 7) / 8 else 4
    some
      { p := params
        mt := mt
        treeHeight := treeHeight
        indexBytes := indexBytes
        wotsLogW := params.wotsLogW
        wotsLen1 := params.wotsLen1
        wotsLen2 := params.wotsLen2
        wotsLen := params.wotsLen
        wotsSigBytes := params.wotsSignatureSize
        sigBytes := indexBytes + params.n +
          params.d * params.wotsSignatureSize + params.fullHeight * params.n
        pkBytes := 2 * params.n
        skBytes := indexBytes + 4 * params.n }

/-! ### Sequence-number lifecycle

The persistent side is `fsContainer` (seqNo and borrowed stored in the
key file); the in-memory side is the corresponding pair of fields of
`PrivateKey`.  File-system writes are modelled by their success path:
`writeKeyFile` either persists the new header or rolls the fields back
and reports an error, so the success path is the only one that changes
state. -/

/-- Persistent seqNo state of a container (the `seqNo` and `borrowed`
fields of `fsContainer`). -/
structure CtrState where
  seqNo : Nat
  borrowed : Nat
deriving DecidableEq

/-- State update of `fsContainer.SetSeqNo`: store the new sequence
number and clear the possible-lost-signatures record. -/
def ctrSetSeqNo (_c : CtrState) (v : Nat) : CtrState := ⟨v, 0⟩

/-- State update and return value of `fsContainer.BorrowSeqNos`: advance
both counters by `amount` and hand back the first borrowed number. -/
def ctrBorrowSeqNos (c : CtrState) (amount : Nat) : CtrState × Nat :=
  (⟨c.seqNo + amount, c.borrowed + amount⟩, c.seqNo)

/-- In-memory seqNo state of a `PrivateKey` together with its container. -/
structure SKState where
  seqNo : Nat
  borrowed : Nat
  ctr : CtrState
deriving DecidableEq

/-- The current `PrivateKey.getSeqNo`: refuse when the in-memory seqNo
has reached `MaxSignatureSeqNo`; otherwise either consume a borrowed
number (no container write) or persist `seqNo + 1` first; then hand out
the old seqNo and advance it.  The subtree-precomputation hook it may
spawn does not touch any of these fields. -/
def getSeqNo (p : Params) (s : SKState) : Option Nat × SKState :=
  if s.seqNo = p.maxSignatureSeqNo then (none, s)
  else if 0 < s.borrowed then
    (some s.seqNo, ⟨s.seqNo + 1, s.borrowed - 1, s.ctr⟩)
  else
    (some s.seqNo, ⟨s.seqNo + 1, s.borrowed, ctrSetSeqNo s.ctr (s.seqNo + 1)⟩)

/-- The current `PrivateKey.borrowExactly`: make exactly `amount`
sequence numbers borrowed, either by rewinding the persisted seqNo
(when shrinking) or by borrowing the difference from the container. -/
def borrowExactly (s : SKState) (amount : Nat) : SKState :=
  if s.borrowed = amount then s
  else if s.borrowed > amount then
    ⟨s.seqNo, amount, ctrSetSeqNo s.ctr (s.seqNo + amount)⟩
  else
    ⟨s.seqNo, amount, (ctrBorrowSeqNos s.ctr (amount - s.borrowed)).1⟩

/-- The current `PrivateKey.Close`: if numbers remain borrowed, clear
them and persist the in-memory seqNo (the first unused number). -/
def skClose (s : SKState) : SKState :=
  if 0 < s.borrowed then ⟨s.seqNo, 0, ctrSetSeqNo s.ctr s.seqNo⟩ else s

/-- Operations of the sequence-number lifecycle used by the durable
frontier invariant: a `Sign` draws a number via `getSeqNo`, a
`Borrow` calls `BorrowExactly`, a `CloseK` closes the key. -/
inductive SeqNoOp where
  | signOp : SeqNoOp
  | borrowOp : Nat → SeqNoOp
  | closeOp : SeqNoOp
deriving DecidableEq

/-- One lifecycle step; returns the list (empty or singleton) of
sequence numbers handed out for signing by the step. -/
def seqNoStep (p : Params) (s : SKState) : SeqNoOp → SKState × List Nat
  | SeqNoOp.signOp =>
      match getSeqNo p s with
      | (some v, s₁) => (s₁, [v])
      | (none, s₁) => (s₁, [])
  | SeqNoOp.borrowOp a => (borrowExactly s a, [])
  | SeqNoOp.closeOp => (skClose s, [])

/-- Run a list of lifecycle operations, collecting every sequence
number handed out for signing. -/
def seqNoRun (p : Params) (s : SKState) : List SeqNoOp → SKState × List Nat
  | [] => (s, [])
  | op :: ops =>
      let r := seqNoStep p s op
      let r₁ := seqNoRun p r.1 ops
      (r₁.1, r.2 ++ r₁.2)

/-- A freshly derived key (container `Reset` and `DeriveInto`): both
seqNo counters are zero and nothing is borrowed. -/
def derivedSKState : SKState := ⟨0, 0, ⟨0, 0⟩⟩

/-! ### Loading a key from a container (part_006) -/

/-- Relevant persistent state of a `fsContainer`, as read back from the
key file header on open. -/
structure FsContainer where
  initialized : Bool
  params : Params
  seqNo : Nat
  borrowed : Nat
deriving DecidableEq

/-- Return of `fsContainer.GetSeqNo`: the stored seqNo, plus the stored
`borrowed` count as the number of possibly lost signatures. -/
def fsGetSeqNo (c : FsContainer) : Option (Nat × Nat) :=
  if c.initialized then some (c.seqNo, c.borrowed) else none

/-- The current `LoadPrivateKeyFrom`, restricted to the state the
claims mention: check the container is initialized, build the context,
read `(seqNo, lostSigs)` from the container and build the private key
via `newPrivateKey` (which rejects a seqNo above the maximum and does
not borrow anything).  Cache resets and root recomputation do not
affect these fields. -/
def LoadPrivateKeyFrom (c : FsContainer) : Option (SKState × Nat) :=
  if c.initialized = false then none
  else
    match NewContext c.params with
    | none => none
    | some _ =>
      match fsGetSeqNo c with
      | none => none
      | some (seqNo, lostSigs) =>
        if seqNo > c.params.maxSignatureSeqNo then none
        else some (⟨seqNo, 0, ⟨c.seqNo, c.borrowed⟩⟩, lostSigs)

/-! ### Addresses (address.go)

A hash address is an array of eight `uint32` slots, written big-endian
when fed to a hash.  Go passes `address` by value, so every mutation in
the source acts on a copy; the functional updates below are exact. -/

/-- Hash address: the eight `uint32` slots of `address` in address.go. -/
structure Address where
  a0 : Nat
  a1 : Nat
  a2 : Nat
  a3 : Nat
  a4 : Nat
  a5 : Nat
  a6 : Nat
  a7 : Nat
deriving DecidableEq

/-- Address type tag for one-time signatures (address.go). -/
def ADDR_TYPE_OTS : Nat := 0
/-- Address type tag for L-trees (address.go). -/
def ADDR_TYPE_LTREE : Nat := 1
/-- Address type tag for hash-tree nodes (address.go). -/
def ADDR_TYPE_HASHTREE : Nat := 2

/-- The zero address, corresponding to a freshly declared Go `address`. -/
def Address.zero : Address := ⟨0, 0, 0, 0, 0, 0, 0, 0⟩

/-- Slot 0 stores the hypertree layer. -/
def Address.setLayer (a : Address) (v : Nat) : Address := { a with a0 := v }

/-- Slots 1 and 2 store the 64-bit tree index, split high/low. -/
def Address.setTree (a : Address) (tree : Nat) : Address :=
  { a with a1 := tree / 2 ^ 32 % 2 ^ 32, a2 := tree % 2 ^ 32 }

/-- Slot 3 stores the address type. -/
def Address.setType (a : Address) (v : Nat) : Address := { a with a3 := v }

/-- Slot 7 stores the key-and-mask selector. -/
def Address.setKeyAndMask (a : Address) (v : Nat) : Address := { a with a7 := v }

/-- Copy the subtree-identifying slots 0 to 2 from another address. -/
def Address.setSubTreeFrom (a other : Address) : Address :=
  { a with a0 := other.a0, a1 := other.a1, a2 := other.a2 }

/-- Slot 4 stores the OTS keypair index. -/
def Address.setOTS (a : Address) (v : Nat) : Address := { a with a4 := v }

/-- Slot 5 stores the WOTS+ chain index. -/
def Address.setChain (a : Address) (v : Nat) : Address := { a with a5 := v }

/-- Slot 6 stores the position within a WOTS+ chain. -/
def Address.setHash (a : Address) (v : Nat) : Address := { a with a6 := v }

/-- Slot 4 stores the L-tree index. -/
def Address.setLTree (a : Address) (v : Nat) : Address := { a with a4 := v }

/-- Slot 5 stores the height of a hash-tree node. -/
def Address.setTreeHeight (a : Address) (v : Nat) : Address := { a with a5 := v }

/-- Slot 6 stores the index of a hash-tree node. -/
def Address.setTreeIndex (a : Address) (v : Nat) : Address := { a with a6 := v }

/-- Position of a subtree in the hypertree (`SubTreeAddress`). -/
structure SubTreeAddress where
  layer : Nat
  tree : Nat
deriving DecidableEq

/-- Conversion of a subtree position to a hash address
(`SubTreeAddress.address` in address.go). -/
def SubTreeAddress.address (sta : SubTreeAddress) : Address :=
  (Address.zero.setLayer sta.layer).setTree sta.tree

/-! ### Hash primitives

Per the specification, the base hash compression functions are external
primitives.  A `HashPrims` bundles the five derived hash operations the
engine uses, each already closed over the key material it absorbs
(`pubSeed` for `F` and `H`, `skSeed` ‖ `pubSeed` for `prfKeyGen`,
`skPrf` for `prfU64`), matching `precomputedHashes` in hash.go:

* `F` is `fInto` as a function of the address and the n-byte input;
* `H` is `hInto` on an address and two n-byte inputs;
* `prfKeyGen` is `prfKeyGenInto` on an address (the WOTS+ chain-seed
  derivation used by `genWotsSk`);
* `Hmsg` is `hashMessage` on message, randomiser, root and seqNo;
* `prfU64` is `prfUint64` on a sequence number, keyed with `skPrf`. -/
structure HashPrims where
  F : Address → List Nat → List Nat
  H : Address → List Nat → List Nat → List Nat
  prfKeyGen : Address → List Nat
  Hmsg : List Nat → List Nat → List Nat → Nat → List Nat
  prfU64 : Nat → List Nat

/-! ### WOTS+ engine (wots.go)

Buffers of `len · n` bytes holding `len` chain values are modelled as
lists of `len` chunks; `List.flatten` recovers the flat byte slice.  The
embedding follows the plain loops of wots.go; the `fX4Into` branches
are a CPU-specific batching of the same `F` calls. -/

/-- Inner state machine of `toBaseW` (wots.go): `total` is the byte
being consumed, `bits` the number of its bits not yet emitted, and the
last argument counts the digits still to produce.  Masking with
`W - 1 = 2 ^ logW - 1` is written `% W`.  When the Go code would read
past the input (impossible for the call sites, which pass an n-byte
digest) the embedding stops early. -/
def toBaseWAux (logW W : Nat) : List Nat → Nat → Nat → Nat → List Nat
  | _, _, _, 0 => []
  | input, total, bits, k + 1 =>
    if bits = 0 then
      match input with
      | [] => []
      | b :: rest =>
        b / 2 ^ (8 - logW) % W :: toBaseWAux logW W rest b (8 - logW) k
    else
      total / 2 ^ (bits - logW) % W ::
        toBaseWAux logW W input total (bits - logW) k

/-- Base-w conversion `toBaseW` (wots.go): for `wotsW = 256` the Go code
just copies bytes into the output (zero-filled when the input is
short); otherwise it runs the bit-extraction loop. -/
def toBaseW (ctx : Context) (input : List Nat) (outLen : Nat) : List Nat :=
  if ctx.p.wotsW = 256 then
    input.take outLen ++ List.replicate (outLen - input.length) 0
  else toBaseWAux ctx.wotsLogW ctx.p.wotsW input 0 0 outLen

/-- Chain lengths of a message, from `wotsChainLengths` (wots.go):
base-w digits of the message followed by the base-w digits of the
left-aligned checksum. -/
def wotsChainLengths (ctx : Context) (msg : List Nat) : List Nat :=
  let lengths1 := toBaseW ctx msg ctx.wotsLen1
  let csum := lengths1.foldl (fun c v => c + (ctx.p.wotsW - 1 - v)) 0
  let shifted := csum * 2 ^ (8 - ctx.wotsLen2 * ctx.wotsLogW % 8)
  lengths1 ++
    toBaseW ctx
      (encodeUint64 shifted ((ctx.wotsLen2 * ctx.wotsLogW + 7) / 8))
      ctx.wotsLen2

/-- One WOTS+ chain, from `wotsGenChainInto` (wots.go): starting from
value `v` at position `i`, apply `steps` rounds of `F` (with the
address's hash slot set to the position), stopping at position
`W - 1`. -/
def wotsGenChain (W : Nat) (prims : HashPrims) (addr : Address) :
    Nat → Nat → List Nat → List Nat
  | _, 0, v => v
  | i, steps + 1, v =>
    if i < W then
      wotsGenChain W prims addr (i + 1) steps (prims.F (addr.setHash i) v)
    else v

/-- WOTS+ secret key expansion, from `genWotsSk` (wots.go): zero the
hash and key-and-mask slots, then derive one chain seed per chain
index. -/
def genWotsSk (ctx : Context) (prims : HashPrims) (addr : Address) :
    List (List Nat) :=
  let addr := (addr.setHash 0).setKeyAndMask 0
  (List.range ctx.wotsLen).map (fun i => prims.prfKeyGen (addr.setChain i))

/-- WOTS+ public key generation, from `wotsPkGenInto` (wots.go,
plain branch): advance every secret chain value by `wotsW - 1` steps
from position 0. -/
def wotsPkGen (ctx : Context) (prims : HashPrims) (addr : Address) :
    List (List Nat) :=
  let sk := genWotsSk ctx prims addr
  (List.range ctx.wotsLen).map (fun i =>
    wotsGenChain ctx.p.wotsW prims (addr.setChain i) 0 (ctx.p.wotsW - 1)
      (sk.getD i []))

/-- WOTS+ signing, from `wotsSignInto` (wots.go, plain branch): advance
chain `i` by `lengths[i]` steps from position 0. -/
def wotsSign (ctx : Context) (prims : HashPrims) (addr : Address)
    (msg : List Nat) : List (List Nat) :=
  let lengths := wotsChainLengths ctx msg
  let sk := genWotsSk ctx prims addr
  (List.range ctx.wotsLen).map (fun i =>
    wotsGenChain ctx.p.wotsW prims (addr.setChain i) 0 (lengths.getD i 0)
      (sk.getD i []))

/-- WOTS+ public key recovery from a signature, from
`wotsPkFromSigInto` (wots.go, plain branch): advance chain `i` of the
signature by `wotsW - 1 - lengths[i]` steps from position
`lengths[i]`. -/
def wotsPkFromSig (ctx : Context) (prims : HashPrims) (addr : Address)
    (sig : List (List Nat)) (msg : List Nat) : List (List Nat) :=
  let lengths := wotsChainLengths ctx msg
  (List.range ctx.wotsLen).map (fun i =>
    wotsGenChain ctx.p.wotsW prims (addr.setChain i) (lengths.getD i 0)
      (ctx.p.wotsW - 1 - lengths.getD i 0) (sig.getD i []))

/-! ### L-tree and Merkle subtrees (the current core source) -/

/-- One round of the `lTree` loop (the inner `for` over `parentNodes`):
hash adjacent chunk pairs with increasing tree-index, and promote an
odd trailing chunk unchanged — exactly what the in-place
`copy(wotsPk[(l>>1)*n:...], wotsPk[(l-1)*n:...])` does. -/
def lTreePairs (prims : HashPrims) (addr : Address) :
    Nat → List (List Nat) → List (List Nat)
  | _, [] => []
  | _, [x] => [x]
  | i, x :: y :: rest =>
    prims.H (addr.setTreeIndex i) x y :: lTreePairs prims addr (i + 1) rest

/-- Outer `lTree` loop: repeat rounds with increasing tree-height until
one chunk is left.  The Go loop terminates because each round at least
halves `l`; the fuel argument (instantiated with the initial number of
chunks) makes that termination explicit. -/
def lTreeLoop (prims : HashPrims) (addr : Address) :
    Nat → Nat → List (List Nat) → List Nat
  | 0, _, cs => cs.headD []
  | fuel + 1, height, cs =>
    if cs.length ≤ 1 then cs.headD []
    else lTreeLoop prims addr fuel (height + 1)
      (lTreePairs prims (addr.setTreeHeight height) 0 cs)

/-- The leaf compression `lTree` (current core source): fold the
`wotsLen` public-key chunks down to a single n-byte value. -/
def lTree (prims : HashPrims) (wotsPk : List (List Nat)) (addr : Address) :
    List Nat :=
  lTreeLoop prims addr wotsPk.length 0 wotsPk

/-- Leaf generation `genLeaf` (current core source): WOTS+ public key at
the OTS address, compressed by `lTree` at the L-tree address. -/
def genLeaf (ctx : Context) (prims : HashPrims) (lTreeAddr otsAddr : Address) :
    List Nat :=
  lTree prims (wotsPkGen ctx prims otsAddr) lTreeAddr

/-- Node values of the Merkle subtree at position `sta`, from
`genSubTreeInto` (current core source): leaves from `genLeaf` with the
per-leaf OTS and L-tree addresses, internal node `(h+1, idx)` hashed
from its children at tree-height slot `h` and tree-index slot `idx`. -/
def subTreeNode (ctx : Context) (prims : HashPrims) (sta : SubTreeAddress) :
    Nat → Nat → List Nat
  | 0, idx =>
    let base := Address.zero.setSubTreeFrom sta.address
    genLeaf ctx prims ((base.setType ADDR_TYPE_LTREE).setLTree idx)
      ((base.setType ADDR_TYPE_OTS).setOTS idx)
  | h + 1, idx =>
    let base := Address.zero.setSubTreeFrom sta.address
    prims.H
      (((base.setType ADDR_TYPE_HASHTREE).setTreeHeight h).setTreeIndex idx)
      (subTreeNode ctx prims sta h (2 * idx))
      (subTreeNode ctx prims sta h (2 * idx + 1))

/-- Root of the subtree at `sta` (`merkleTree.Root` on a generated
subtree of height `treeHeight + 1`). -/
def subTreeRoot (ctx : Context) (prims : HashPrims) (sta : SubTreeAddress) :
    List Nat :=
  subTreeNode ctx prims sta ctx.treeHeight 0

/-- Position of the parent subtree, from `getSubTree` (current core
source): one layer up, tree index shifted down by `treeHeight`. -/
def parentOf (ctx : Context) (sta : SubTreeAddress) : SubTreeAddress :=
  ⟨sta.layer + 1, sta.tree / 2 ^ ctx.treeHeight⟩

/-- The WOTS+ signature stored in the cached record of a non-root
subtree, from the tail of `getSubTree`: its root signed under the
parent subtree's one-time key at leaf `tree mod 2 ^ treeHeight`
(truncated to `uint32` by the Go cast). -/
def subTreeRootSig (ctx : Context) (prims : HashPrims)
    (sta : SubTreeAddress) : List (List Nat) :=
  wotsSign ctx prims
    ((parentOf ctx sta).address.setOTS (sta.tree % 2 ^ ctx.treeHeight % 2 ^ 32))
    (subTreeRoot ctx prims sta)

/-- Chunk of the WOTS+ signature area in a cached subtree record: the
stored signature for a non-root subtree, and the zero bytes the
allocation left there for the root subtree (nothing ever writes the
root's signature slot). -/
def recordWotsArea (ctx : Context) (prims : HashPrims)
    (sta : SubTreeAddress) : List (List Nat) :=
  if sta.layer = ctx.p.d - 1 then
    List.replicate ctx.wotsLen (List.replicate ctx.p.n 0)
  else subTreeRootSig ctx prims sta

/-- The authentication path `merkleTree.AuthPath` for a subtree of
height `treeHeight + 1`: the Go loop runs `mt.height` times, so besides
the `treeHeight` genuine siblings it fetches one more node one past the
root level.  `merkleTree.Node` computes for it the offset just past the
tree buffer, which inside the cached record is the first chunk of the
adjacent WOTS+ signature area (the mmap-backed slice has the capacity
to reach it); no consumer of an authentication path ever reads that
trailing chunk. -/
def signAuthPath (ctx : Context) (prims : HashPrims) (sta : SubTreeAddress)
    (leaf : Nat) : List (List Nat) :=
  ((List.range ctx.treeHeight).map
    (fun i => subTreeNode ctx prims sta i (leaf / 2 ^ i ^^^ 1))) ++
    [(recordWotsArea ctx prims sta).getD 0 []]

/-! ### Hypertree signing and verification -/

/-- Path of subtrees and leaf indices of a sequence number, from
`subTreePathForSeqNo` (current core source).  The leaf index is the Go
expression `uint32((seqNo >> (layer*treeHeight)) & (2^treeHeight - 1))`,
hence the final truncation to 32 bits. -/
def subTreePath (ctx : Context) (seqNo : Nat) :
    List (SubTreeAddress × Nat) :=
  (List.range ctx.p.d).map (fun layer =>
    (⟨layer, seqNo / 2 ^ ((layer + 1) * ctx.treeHeight)⟩,
      seqNo / 2 ^ (layer * ctx.treeHeight) % 2 ^ ctx.treeHeight % 2 ^ 32))

/-- One layer of a hypertree signature, chunk view (`subTreeSig`). -/
structure HSubSig where
  wotsSig : List (List Nat)
  authPath : List (List Nat)
deriving DecidableEq

/-- A hypertree signature, chunk view (`Signature` without its
context pointer). -/
structure HSignature where
  seqNo : Nat
  drv : List Nat
  sigs : List HSubSig
deriving DecidableEq

/-- Root node of a key pair: `DeriveInto` takes it from the subtree at
layer `d - 1`, tree 0. -/
def skRoot (ctx : Context) (prims : HashPrims) : List Nat :=
  subTreeRoot ctx prims ⟨ctx.p.d - 1, 0⟩

/-- The signature `PrivateKey.Sign`/`SignFrom` assembles for sequence
number `seqNo`: the randomiser from `prfUint64`, layer 0 freshly
signing the message hash, and each higher layer reusing the cached
subtree signature of the layer below together with the corresponding
authentication path. -/
def signAt (ctx : Context) (prims : HashPrims) (seqNo : Nat)
    (msg : List Nat) : HSignature :=
  let pl := subTreePath ctx seqNo
  let drv := prims.prfU64 seqNo
  let mhash := prims.Hmsg msg drv (skRoot ctx prims) seqNo
  let sl0 := pl.getD 0 (⟨0, 0⟩, 0)
  let sig0 : HSubSig :=
    { wotsSig := wotsSign ctx prims (sl0.1.address.setOTS sl0.2) mhash
      authPath := signAuthPath ctx prims sl0.1 sl0.2 }
  let rest := (List.range (ctx.p.d - 1)).map (fun j =>
    let slPrev := pl.getD j (⟨0, 0⟩, 0)
    let sl := pl.getD (j + 1) (⟨0, 0⟩, 0)
    ({ wotsSig := subTreeRootSig ctx prims slPrev.1
       authPath := signAuthPath ctx prims sl.1 sl.2 } : HSubSig))
  ⟨seqNo, drv, sig0 :: rest⟩

/-- The climb up a subtree in `PublicKey.VerifyFrom`: the Go `for`
loop over `height = 1 .. treeHeight`, with the remaining iteration
count made explicit.  At each height the sibling comes from the
authentication path and the side is chosen by the parity of the
offset. -/
def verifyClimbAux (prims : HashPrims) (base : Address)
    (ap : List (List Nat)) : Nat → Nat → Nat → List Nat → List Nat
  | 0, _, _, cur => cur
  | r + 1, height, offset, cur =>
    let sib := ap.getD (height - 1) []
    let na := (base.setTreeHeight (height - 1)).setTreeIndex (offset / 2)
    let cur₁ :=
      if offset % 2 = 0 then prims.H na cur sib else prims.H na sib cur
    verifyClimbAux prims base ap r (height + 1) (offset / 2) cur₁

/-- One layer of `PublicKey.VerifyFrom`: recover the WOTS+ public key
from the layer's signature and the incoming message, compress it with
`lTree`, and climb the authentication path. -/
def verifyLayer (ctx : Context) (prims : HashPrims)
    (sl : SubTreeAddress × Nat) (rxSig : HSubSig) (msgIn : List Nat) :
    List Nat :=
  let rxAddr := sl.1.address
  let otsAddr :=
    ((Address.zero.setSubTreeFrom rxAddr).setType ADDR_TYPE_OTS).setOTS sl.2
  let lTreeAddr :=
    ((Address.zero.setSubTreeFrom rxAddr).setType ADDR_TYPE_LTREE).setLTree sl.2
  let nodeAddr := (Address.zero.setSubTreeFrom rxAddr).setType ADDR_TYPE_HASHTREE
  let wotsPk := wotsPkFromSig ctx prims otsAddr rxSig.wotsSig msgIn
  let cur := lTree prims wotsPk lTreeAddr
  verifyClimbAux prims nodeAddr rxSig.authPath ctx.treeHeight 1 sl.2 cur

/-- The verification `PublicKey.VerifyFrom`: rebuild the message hash,
fold the per-layer recovery bottom-up, and constant-time compare the
final node against the public root. -/
def verify (ctx : Context) (prims : HashPrims) (root : List Nat)
    (sig : HSignature) (msg : List Nat) : Bool :=
  let pl := subTreePath ctx sig.seqNo
  let mhash := prims.Hmsg msg sig.drv root sig.seqNo
  let final := (List.range ctx.p.d).foldl
    (fun rx layer =>
      verifyLayer ctx prims (pl.getD layer (⟨0, 0⟩, 0))
        (sig.sigs.getD layer ⟨[], []⟩) rx) mhash
  decide (final = root)

/-- Message value fed into layer `ℓ` of the hypertree: the message
hash at the bottom, the root of the previous layer's subtree above
(proof-side description of the signing pipeline). -/
def msgAtLayer (ctx : Context) (prims : HashPrims) (seqNo : Nat)
    (mhash : List Nat) : Nat → List Nat
  | 0 => mhash
  | ℓ + 1 =>
    subTreeRoot ctx prims ⟨ℓ, seqNo / 2 ^ ((ℓ + 1) * ctx.treeHeight)⟩

/-- The randomised message hash both `Sign` and `Verify` compute for a
signature at `seqNo` under the key's root. -/
def signMsgHash (ctx : Context) (prims : HashPrims) (seqNo : Nat)
    (msg : List Nat) : List Nat :=
  prims.Hmsg msg (prims.prfU64 seqNo) (skRoot ctx prims) seqNo

/-! ### Signature serialisation (current api source), byte view -/

/-- One layer of a signature as raw bytes (`subTreeSig`). -/
structure SubTreeSigBytes where
  wotsSig : List Nat
  authPath : List Nat
deriving DecidableEq

/-- A signature as raw byte fields (`Signature`, wire view). -/
structure SignatureBytes where
  seqNo : Nat
  drv : List Nat
  sigs : List SubTreeSigBytes
deriving DecidableEq

/-- The per-layer copy loop of `Signature.WriteInto`: layer `i` writes
its WOTS+ signature at `stOff + i*stLen` and its authentication path
`wotsSigBytes` later. -/
def writeSubSigs (stOff stLen wsb : Nat) :
    Nat → List SubTreeSigBytes → List Nat → List Nat
  | _, [], buf => buf
  | i, s :: rest, buf =>
    let buf₁ := listCopy buf (stOff + i * stLen) s.wotsSig
    let buf₂ := listCopy buf₁ (stOff + i * stLen + wsb) s.authPath
    writeSubSigs stOff stLen wsb (i + 1) rest buf₂

/-- The current `Signature.WriteInto`: parameter header, sequence
number in `indexBytes` big-endian bytes, the randomiser, then the
per-layer signatures. -/
def sigWriteInto (ctx : Context) (sig : SignatureBytes) (buf : List Nat) :
    Option (List Nat) :=
  match ctx.p.writeInto with
  | none => none
  | some hdr =>
    let buf₀ := listCopy buf 0 hdr
    let buf₁ := listCopy buf₀ 4 (encodeUint64 sig.seqNo ctx.indexBytes)
    let buf₂ := listCopy buf₁ (4 + ctx.indexBytes) sig.drv
    let stOff := 4 + ctx.indexBytes + ctx.p.n
    let stLen := ctx.wotsSigBytes + ctx.p.n * ctx.treeHeight
    some (writeSubSigs stOff stLen ctx.wotsSigBytes 0 sig.sigs buf₂)

/-- The current `Signature.MarshalBinary`: a fresh zero buffer of
`4 + sigBytes` bytes filled by `WriteInto`. -/
def sigMarshal (ctx : Context) (sig : SignatureBytes) : Option (List Nat) :=
  sigWriteInto ctx sig (List.replicate (4 + ctx.sigBytes) 0)

/-- Read `len` bytes at offset `off`, the effect of
`copy(dst, buf[off:off+len])` into a fresh zero buffer `dst` of `len`
bytes: the window bytes followed by zeros where the window is short. -/
def readBuf (buf : List Nat) (off len : Nat) : List Nat :=
  let w := (buf.drop off).take len
  w ++ List.replicate (len - w.length) 0

/-- The current `Signature.UnmarshalBinary`: parse the header, rebuild
the context, then cut the sequence number, randomiser and the `d`
layers out of the buffer; each reconstructed authentication path
buffer has `n * treeHeight` bytes. -/
def sigUnmarshal (buf : List Nat) : Option (Context × SignatureBytes) :=
  match Params.unmarshalBinary (buf.take 4) with
  | none => none
  | some params =>
    match NewContext params with
    | none => none
    | some ctx =>
      let seqNo := decodeUint64 ((buf.drop 4).take ctx.indexBytes)
      let drv := readBuf buf (4 + ctx.indexBytes) params.n
      let stOff := 4 + ctx.indexBytes + params.n
      let stLen := ctx.wotsSigBytes + params.n * ctx.treeHeight
      let sigs := (List.range params.d).map (fun i =>
        ({ wotsSig := readBuf buf (stOff + i * stLen) ctx.wotsSigBytes
           authPath := readBuf buf (stOff + i * stLen + ctx.wotsSigBytes)
             (params.n * ctx.treeHeight) } : SubTreeSigBytes))
      some (ctx, ⟨seqNo, drv, sigs⟩)

/-! ### The subtree cache of `PrivateKey.getSubTree` (current core
source)

The model runs the single-signer execution of `getSubTree`: the two
branches that wait on the condition variable for a concurrent filler,
and the two `panic` branches asserting that the container cache and the
in-memory `subTreeReady` map have the same domain, are mapped to
`none` (they are unreachable in a sequential run from a well-formed
state).  The checksum function (`xxhash.Sum64`, an external package) is
a parameter. -/

/-- A cached subtree record as handed out by `fsContainer.GetSubTree`:
the body (tree area of `bareSubTreeSize` bytes followed by the WOTS+
signature area) and the trailing 8-byte checksum, decoded. -/
structure STRecord where
  body : List Nat
  checksum : Nat
deriving DecidableEq

/-- State of the subtree cache: the container records plus the
`subTreeReady` and `subTreeChecked` maps of the `PrivateKey` (a Go map
read of `subTreeChecked` defaults to `false`). -/
structure CacheState where
  recs : SubTreeAddress → Option STRecord
  ready : SubTreeAddress → Option Bool
  checked : SubTreeAddress → Bool

/-- Byte contents of the tree area written by `genSubTreeInto`: the
levels of the subtree bottom-up, each level its nodes left to right
(the layout of `merkleTree`). -/
def treeBuf (ctx : Context) (prims : HashPrims) (sta : SubTreeAddress) :
    List Nat :=
  ((List.range (ctx.treeHeight + 1)).map (fun h =>
    ((List.range (2 ^ (ctx.treeHeight - h))).map
      (fun i => subTreeNode ctx prims sta h i)).flatten)).flatten

/-- A freshly allocated record: `fsContainer.GetSubTree` returns a
zeroed buffer for a new address (`exists = false`). -/
def freshRecord (ctx : Context) : STRecord :=
  ⟨List.replicate (ctx.p.bareSubTreeSize + ctx.wotsSigBytes) 0, 0⟩

/-- Store a record. -/
def CacheState.setRec (st : CacheState) (sta : SubTreeAddress)
    (r : STRecord) : CacheState :=
  { st with recs := fun a => if a = sta then some r else st.recs a }

/-- Update the `subTreeReady` entry. -/
def CacheState.setReady (st : CacheState) (sta : SubTreeAddress)
    (b : Bool) : CacheState :=
  { st with ready := fun a => if a = sta then some b else st.ready a }

/-- Update the `subTreeChecked` entry. -/
def CacheState.setChecked (st : CacheState) (sta : SubTreeAddress)
    (b : Bool) : CacheState :=
  { st with checked := fun a => if a = sta then b else st.checked a }

/-- The ancestor subtrees materialised by the loop
`for layer := D-1; layer > sta.Layer; layer--` in `getSubTree`. -/
def ancestorList (ctx : Context) (sta : SubTreeAddress) :
    List SubTreeAddress :=
  (List.range (ctx.p.d - 1 - sta.layer)).map (fun k =>
    let layer := ctx.p.d - 1 - k
    ⟨layer, sta.tree / 2 ^ (ctx.treeHeight * (layer - sta.layer))⟩)

mutual

/-- The sequential `PrivateKey.getSubTree`.  The fuel bounds the
recursion depth (the Go recursion climbs strictly towards the top
layer); `d` units always suffice. -/
def getSubTreeM (hash : List Nat → Nat) (ctx : Context)
    (prims : HashPrims) :
    Nat → CacheState → SubTreeAddress → Option (CacheState × STRecord)
  | 0, _, _ => none
  | fuel + 1, st, sta =>
    match st.recs sta, st.ready sta with
    | some r₀, some true =>
      if st.checked sta then some (st, r₀)
      else if hash r₀.body = r₀.checksum then
        some (st.setChecked sta true, r₀)
      else
        let st₁ := st.setReady sta false
        let bodyGen := treeBuf ctx prims sta ++
          r₀.body.drop ctx.p.bareSubTreeSize
        let st₂ := st₁.setRec sta ⟨bodyGen, r₀.checksum⟩
        materializeTail hash ctx prims fuel st₂ sta bodyGen false
    | some _, some false => none
    | some _, none => none
    | none, some _ => none
    | none, none =>
      let r₀ := freshRecord ctx
      let st₁ := ((st.setRec sta r₀).setReady sta false).setChecked sta true
      let parentReady :=
        if sta.layer = ctx.p.d - 1 then false
        else
          match st₁.ready (parentOf ctx sta) with
          | some true => st₁.checked (parentOf ctx sta)
          | _ => false
      let bodyGen := treeBuf ctx prims sta ++
        r₀.body.drop ctx.p.bareSubTreeSize
      let st₂ := st₁.setRec sta ⟨bodyGen, r₀.checksum⟩
      materializeTail hash ctx prims fuel st₂ sta bodyGen parentReady

/-- Tail of `getSubTree` after `genSubTreeInto` has filled the tree
area (`bodyGen`): for the root subtree write the checksum and finish;
otherwise materialise the ancestors when the parent is not ready, get
the parent, sign the root into the WOTS+ area and finish with a fresh
checksum (`succeed`). -/
def materializeTail (hash : List Nat → Nat) (ctx : Context)
    (prims : HashPrims) :
    Nat → CacheState → SubTreeAddress → List Nat → Bool →
    Option (CacheState × STRecord)
  | fuel, st, sta, bodyGen, parentReady =>
    if sta.layer = ctx.p.d - 1 then
      let r := STRecord.mk bodyGen (hash bodyGen)
      some ((((st.setRec sta r).setReady sta true).setChecked sta true), r)
    else
      match
        (if parentReady then some st
         else genAncestorsM hash ctx prims fuel st (ancestorList ctx sta))
      with
      | none => none
      | some st₁ =>
        match getSubTreeM hash ctx prims fuel st₁ (parentOf ctx sta) with
        | none => none
        | some (st₂, _) =>
          let body := treeBuf ctx prims sta ++
            (subTreeRootSig ctx prims sta).flatten
          let r := STRecord.mk body (hash body)
          some ((((st₂.setRec sta r).setReady sta true).setChecked sta true),
            r)

/-- The ancestor loop of `getSubTree`: materialise each listed subtree
in turn, stopping at the first failure. -/
def genAncestorsM (hash : List Nat → Nat) (ctx : Context)
    (prims : HashPrims) :
    Nat → CacheState → List SubTreeAddress → Option CacheState
  | _, st, [] => some st
  | fuel, st, sta :: rest =>
    match getSubTreeM hash ctx prims fuel st sta with
    | none => none
    | some (st₁, _) => genAncestorsM hash ctx prims fuel st₁ rest

end

/-! ### Auxiliary predicates and concrete instances used by the
theorems below -/

/-- The durable-frontier bookkeeping: on-disk seqNo = in-memory seqNo
plus the borrowed count. -/
def FrontierInv (s : SKState) : Prop := s.ctr.seqNo = s.seqNo + s.borrowed

/-- A byte sequence: every element is a byte value. -/
abbrev ByteSeq (l : List Nat) : Prop := ∀ b ∈ l, b < 256

/-- Well-formedness of the hash primitives: like the real SHA-2/SHAKE
constructions, they produce byte values. -/
structure WfPrims (prims : HashPrims) : Prop where
  f_bytes : ∀ a v, ByteSeq (prims.F a v)
  h_bytes : ∀ a v w, ByteSeq (prims.H a v w)
  keyGen_bytes : ∀ a, ByteSeq (prims.prfKeyGen a)
  hmsg_bytes : ∀ m r rt i, ByteSeq (prims.Hmsg m r rt i)

/-- Parameters for concrete witnesses: XMSS with n = 16, h = 2, w = 4. -/
def C9p : Params := Params.mk SHA2 16 2 1 4 RFC

/-- Context of `C9p` as computed by `NewContext`. -/
def C9ctx : Context :=
  ⟨C9p, false, 2, 4, 2, 64, 2, 66, 1056, 1108, 32, 68⟩

/-- A small concrete instantiation of the hash primitives, used by the
witnesses; all outputs are n-byte sequences for n = 16. -/
def demoPrims : HashPrims where
  F := fun a v => List.replicate 16 ((a.a5 + a.a6 * 3 + v.headD 0 * 7 + 1) % 256)
  H := fun a v w =>
    List.replicate 16 ((a.a5 + a.a6 + v.headD 0 * 5 + w.headD 0 * 11 + 2) % 256)
  prfKeyGen := fun a => List.replicate 16 ((a.a5 * 13 + a.a4 + 3) % 256)
  Hmsg := fun m r rt i =>
    List.replicate 16 ((m.headD 0 + r.headD 0 * 3 + rt.headD 0 * 5 + i) % 256)
  prfU64 := fun i => List.replicate 16 (i % 256)

/-- Context of the two-layer witness parameters
(XMSS^MT, n = 16, h = 2, d = 2, w = 4) as computed by `NewContext`. -/
def C1ctx : Context :=
  ⟨Params.mk SHA2 16 2 2 4 RFC, true, 1, 1, 2, 64, 2, 66, 1056, 2161, 32, 65⟩

/-- Parameters with a tall single tree: XMSS (d = 1) with n = 16,
h = 33, w = 256.  Here `indexBytes = 4` but `maxSignatureSeqNo`
exceeds `2^32 - 1`, so sequence numbers above `2^32 - 1` are truncated
by serialisation. -/
def C10p : Params := Params.mk SHA2 16 33 1 256 RFC

/-- Context of `C10p` as computed by `NewContext`. -/
def C10ctx : Context :=
  ⟨C10p, false, 33, 4, 8, 16, 5, 21, 336, 884, 32, 68⟩

/-- A well-formed signature for `C10p` whose sequence number `2^32`
does not fit the 4 index bytes. -/
def C10sig : SignatureBytes :=
  ⟨2 ^ 32, List.replicate 16 0,
    [⟨List.replicate 336 0, List.replicate 528 0⟩]⟩

/-- A well-formed signature for the witness parameters `C9p`. -/
def C10wsig : SignatureBytes :=
  ⟨5, List.replicate 16 1,
    [⟨List.replicate 1056 2, List.replicate 32 3⟩]⟩

/-- The checksum invariant of the subtree cache: every record that is
ready and was already checked in this process lifetime hashes to its
stored checksum. -/
def CacheWf (hash : List Nat → Nat) (st : CacheState) : Prop :=
  ∀ a r, st.recs a = some r → st.ready a = some true →
    st.checked a = true → hash r.body = r.checksum

/-- Executable stand-in for the checksum function in the witnesses. -/
def C2hash (l : List Nat) : Nat := l.length

/-- The root subtree address of the witness context `C9ctx` (d = 1). -/
def C2sta : SubTreeAddress := ⟨0, 0⟩

/-- A cache state holding one intact record that has not yet been
checked in this lifetime. -/
def C2stGood : CacheState :=
  ⟨fun a => if a = C2sta then some ⟨List.replicate 100 1, 100⟩ else none,
   fun a => if a = C2sta then some true else none,
   fun _ => false⟩

/-! ## Theorems -/

/-! ### Sequence-number lifecycle -/

/-- Claim C3: `getSeqNo` returns the current seqNo and increments it by
one; when `borrowed > 0` it decrements `borrowed` and does not write
the container, otherwise it first persists `seqNo + 1` to the
container; and it fails with an exhaustion error exactly when `seqNo`
equals `max_seqno = 2^h - 1`, in which case `seqNo` and `borrowed` are
unchanged. -/
theorem C3_getSeqNo_spec (p : Params) (s : SKState) :
    ((getSeqNo p s).1 = none ↔ s.seqNo = 2 ^ p.fullHeight - 1) ∧
    (s.seqNo = 2 ^ p.fullHeight - 1 → getSeqNo p s = (none, s)) ∧
    (s.seqNo ≠ 2 ^ p.fullHeight - 1 →
      (getSeqNo p s).1 = some s.seqNo ∧
      (getSeqNo p s).2.seqNo = s.seqNo + 1 ∧
      (0 < s.borrowed →
        (getSeqNo p s).2.borrowed = s.borrowed - 1 ∧
        (getSeqNo p s).2.ctr = s.ctr) ∧
      (s.borrowed = 0 →
        (getSeqNo p s).2.ctr = ctrSetSeqNo s.ctr (s.seqNo + 1))) := by
  unfold getSeqNo Params.maxSignatureSeqNo
  by_cases hmax : s.seqNo = 2 ^ p.fullHeight - 1
  · simp [hmax]
  · by_cases hb : 0 < s.borrowed
    · simp [hmax, hb]
      exact fun h0 => absurd h0 (by omega)
    · simp [hmax, hb]

/-- Witness for C3 at a concrete state with borrowed numbers. -/
theorem C3_getSeqNo_spec_witness :
    (getSeqNo (Params.mk SHA2 32 4 2 16 RFC) ⟨3, 2, ⟨5, 2⟩⟩).1 = some 3 :=
  ((C3_getSeqNo_spec (Params.mk SHA2 32 4 2 16 RFC) ⟨3, 2, ⟨5, 2⟩⟩).2.2
    (by decide)).1

theorem seqNoStep_inv (p : Params) (s : SKState) (op : SeqNoOp)
    (h : FrontierInv s) :
    FrontierInv (seqNoStep p s op).1 ∧
    s.seqNo ≤ (seqNoStep p s op).1.seqNo ∧
    ∀ v ∈ (seqNoStep p s op).2, v < (seqNoStep p s op).1.seqNo := by
  unfold FrontierInv at h ⊢
  cases op with
  | signOp =>
    simp only [seqNoStep]
    unfold getSeqNo
    by_cases hmax : s.seqNo = p.maxSignatureSeqNo
    · simp [hmax, h]
    · by_cases hb : 0 < s.borrowed
      · simp only [hmax, if_false, hb, if_true]
        refine ⟨by simp [ctrSetSeqNo, h]; omega, by simp, ?_⟩
        intro v hv
        simp at hv
        omega
      · simp only [hmax, if_false, hb, if_true]
        refine ⟨by simp [ctrSetSeqNo]; omega, by simp, ?_⟩
        intro v hv
        simp at hv
        omega
  | borrowOp a =>
    simp only [seqNoStep]
    unfold borrowExactly
    by_cases he : s.borrowed = a
    · simp [he]
      omega
    · by_cases hgt : s.borrowed > a
      · simp [he, hgt, ctrSetSeqNo]
      · simp [he, hgt, ctrBorrowSeqNos]
        omega
  | closeOp =>
    simp only [seqNoStep]
    unfold skClose
    by_cases hb : 0 < s.borrowed
    · simp [hb, ctrSetSeqNo]
    · simp [hb, h]

theorem seqNoRun_inv (p : Params) :
    ∀ (ops : List SeqNoOp) (s : SKState), FrontierInv s →
      FrontierInv (seqNoRun p s ops).1 ∧
      s.seqNo ≤ (seqNoRun p s ops).1.seqNo ∧
      ∀ v ∈ (seqNoRun p s ops).2, v < (seqNoRun p s ops).1.seqNo
  | [], s, h => by simpa [seqNoRun] using h
  | op :: ops, s, h => by
    have hstep := seqNoStep_inv p s op h
    have hrest := seqNoRun_inv p ops (seqNoStep p s op).1 hstep.1
    simp only [seqNoRun]
    refine ⟨hrest.1, le_trans hstep.2.1 hrest.2.1, ?_⟩
    intro v hv
    rcases List.mem_append.1 hv with hv1 | hv2
    · exact lt_of_lt_of_le (hstep.2.2 v hv1) hrest.2.1
    · exact hrest.2.2 v hv2

/-- Claim C4: starting from a state satisfying the durable-frontier
bookkeeping (as a freshly derived key does), after any sequence of
`getSeqNo`, `BorrowExactly` and `Close` operations the seqNo persisted
in the container is strictly above every sequence number handed out
for signing (hence at least every such number); and `Close` on a state
with `borrowed > 0` rewinds the persisted seqNo exactly to the first
unused sequence number. -/
theorem C4_durable_frontier (p : Params) (s₀ : SKState)
    (ops : List SeqNoOp) (h : FrontierInv s₀) :
    (∀ v ∈ (seqNoRun p s₀ ops).2, v < (seqNoRun p s₀ ops).1.ctr.seqNo) ∧
    (0 < s₀.borrowed → (skClose s₀).ctr = ⟨s₀.seqNo, 0⟩) := by
  have hrun := seqNoRun_inv p ops s₀ h
  constructor
  · intro v hv
    have hlt := hrun.2.2 v hv
    have hinv := hrun.1
    unfold FrontierInv at hinv
    omega
  · intro hb
    unfold skClose
    simp [hb, ctrSetSeqNo]

/-- Witness for C4 on a concrete trace: derive, borrow two numbers,
sign twice, close. -/
theorem C4_durable_frontier_witness :
    (0 : Nat) <
      (seqNoRun (Params.mk SHA2 32 4 2 16 RFC) derivedSKState
        [SeqNoOp.borrowOp 2, SeqNoOp.signOp, SeqNoOp.signOp,
          SeqNoOp.closeOp]).1.ctr.seqNo :=
  (C4_durable_frontier (Params.mk SHA2 32 4 2 16 RFC) derivedSKState
    [SeqNoOp.borrowOp 2, SeqNoOp.signOp, SeqNoOp.signOp, SeqNoOp.closeOp]
    rfl).1 0 (by decide)

/-! ### Context construction -/

/-- Counterexample to claim C5: the registry's own NIST parameter sets
use `n = 24`, but `NewContext` rejects every `n ∉ {16, 32, 64}`, so it
does not succeed on the claimed set `n ∈ {16, 24, 32, 64}`. -/
theorem C5_counterexample :
    NewContext (Params.mk SHA2 24 20 2 16 NIST) = none := by decide

/-- Claim C5 (amended: the accepted hash lengths are
`n ∈ {16, 32, 64}`, not `{16, 24, 32, 64}`): `NewContext` succeeds for
exactly the parameter sets with `n ∈ {16,32,64}`,
`wotsW ∈ {4,16,256}`, `d ≥ 1` and `d` dividing `h`; for any other
`n`, `wotsW` or `d` it returns an error and no context. -/
theorem C5_newContext_characterisation (p : Params) :
    (NewContext p).isSome ↔
      ((p.n = 16 ∨ p.n = 32 ∨ p.n = 64) ∧
        1 ≤ p.d ∧ p.d ∣ p.fullHeight ∧
        (p.wotsW = 4 ∨ p.wotsW = 16 ∨ p.wotsW = 256)) := by
  unfold NewContext
  split_ifs with h1 h2 h3 h4
  · simp only [Option.isSome_none, Bool.false_eq_true, false_iff]
    rintro ⟨hn, -, -, -⟩
    tauto
  · simp only [Option.isSome_none, Bool.false_eq_true, false_iff]
    rintro ⟨-, hd, -, -⟩
    omega
  · simp only [Option.isSome_none, Bool.false_eq_true, false_iff]
    rintro ⟨-, -, hdvd, -⟩
    exact h3 (Nat.dvd_iff_mod_eq_zero.1 hdvd)
  · simp only [Option.isSome_none, Bool.false_eq_true, false_iff]
    rintro ⟨-, -, -, hw⟩
    tauto
  · simp only [Option.isSome_some, true_iff]
    refine ⟨by tauto, by omega, Nat.dvd_of_mod_eq_zero (by omega), by tauto⟩

/-- Witness for C5 at a concrete accepted parameter set. -/
theorem C5_newContext_characterisation_witness :
    (NewContext (Params.mk SHA2 16 20 2 16 RFC)).isSome :=
  (C5_newContext_characterisation (Params.mk SHA2 16 20 2 16 RFC)).mpr
    (by decide)

/-! ### Loading from a container -/

/-- Claim C6: loading from an initialized container yields
`lostSigs` equal to the stored `borrowed` count and a private key whose
next sequence number is the persisted `seqNo` (so `lostSigs = 0` when
`borrowed = 0`). -/
theorem C6_load_lost_sigs (c : FsContainer)
    (hinit : c.initialized = true)
    (hctx : (NewContext c.params).isSome)
    (hseq : c.seqNo ≤ c.params.maxSignatureSeqNo) :
    LoadPrivateKeyFrom c =
      some (⟨c.seqNo, 0, ⟨c.seqNo, c.borrowed⟩⟩, c.borrowed) := by
  unfold LoadPrivateKeyFrom fsGetSeqNo
  rcases Option.isSome_iff_exists.1 hctx with ⟨ctx, hc⟩
  simp [hinit, hc, Nat.not_lt.2 hseq]

/-- Witness for C6: a container whose previous lifetime borrowed three
signatures and crashed. -/
theorem C6_load_lost_sigs_witness :
    LoadPrivateKeyFrom ⟨true, Params.mk SHA2 32 4 2 16 RFC, 7, 3⟩ =
      some (⟨7, 0, ⟨7, 3⟩⟩, 3) :=
  C6_load_lost_sigs ⟨true, Params.mk SHA2 32 4 2 16 RFC, 7, 3⟩
    (by decide) (by decide) (by decide)

/-! ### Parameter serialisation -/

/-- Claim C8: for every named instance in the registry, serialising its
parameters to the 4-byte compressed header and deserialising that
header yields the identical parameters. -/
theorem C8_params_roundtrip :
    ∀ e ∈ registry,
      e.params.writeInto.bind Params.unmarshalBinary = some e.params := by
  decide

/-- Witness for C8 at the first registry entry. -/
theorem C8_params_roundtrip_witness :
    (Params.mk SHA2 32 20 2 16 RFC).writeInto.bind Params.unmarshalBinary =
      some (Params.mk SHA2 32 20 2 16 RFC) :=
  C8_params_roundtrip
    (RegEntry.mk "XMSSMT-SHA2_20/2_256" true 0x01
      (Params.mk SHA2 32 20 2 16 RFC))
    (by decide)

/-! ### Signature size -/

theorem listCopy_length (buf : List Nat) (off : Nat) (src : List Nat) :
    (listCopy buf off src).length = buf.length := by
  simp [listCopy]
  omega

theorem writeSubSigs_length (stOff stLen wsb : Nat) :
    ∀ (sigs : List SubTreeSigBytes) (i : Nat) (buf : List Nat),
      (writeSubSigs stOff stLen wsb i sigs buf).length = buf.length
  | [], _, _ => rfl
  | s :: rest, i, buf => by
    simp only [writeSubSigs]
    rw [writeSubSigs_length stOff stLen wsb rest (i + 1)]
    rw [listCopy_length, listCopy_length]

theorem sigWriteInto_length (ctx : Context) (sig : SignatureBytes)
    (buf out : List Nat) (h : sigWriteInto ctx sig buf = some out) :
    out.length = buf.length := by
  unfold sigWriteInto at h
  cases hw : ctx.p.writeInto with
  | none => rw [hw] at h; exact absurd h (by simp)
  | some hdr =>
    rw [hw] at h
    simp only [Option.some.injEq] at h
    subst h
    rw [writeSubSigs_length, listCopy_length, listCopy_length, listCopy_length]

/-- Unpacking of a successful `NewContext`: the derived fields in terms
of the parameters, and the validity facts its guards checked. -/
theorem NewContext_spec (p : Params) (ctx : Context)
    (h : NewContext p = some ctx) :
    ctx.p = p ∧
    ctx.treeHeight = p.fullHeight / p.d ∧
    ctx.indexBytes = (if 1 < p.d then (p.fullHeight + 7) / 8 else 4) ∧
    ctx.wotsLogW = p.wotsLogW ∧
    ctx.wotsLen1 = p.wotsLen1 ∧
    ctx.wotsLen2 = p.wotsLen2 ∧
    ctx.wotsLen = p.wotsLen ∧
    ctx.wotsSigBytes = p.wotsLen * p.n ∧
    ctx.sigBytes = ctx.indexBytes + p.n + p.d * (p.wotsLen * p.n) +
      p.fullHeight * p.n ∧
    (p.n = 16 ∨ p.n = 32 ∨ p.n = 64) ∧
    0 < p.d ∧
    p.fullHeight % p.d = 0 ∧
    (p.wotsW = 4 ∨ p.wotsW = 16 ∨ p.wotsW = 256) := by
  unfold NewContext at h
  split_ifs at h with h1 h2 h3 h4
  simp only [Option.some.injEq] at h
  subst h
  refine ⟨rfl, rfl, rfl, rfl, rfl, rfl, rfl, rfl, ?_, by tauto, by omega,
    by omega, by tauto⟩
  simp [Params.wotsSignatureSize]

/-- Claim C9: for every context accepted by `NewContext`, a successful
`Signature.MarshalBinary` returns a byte slice of length exactly
`4 + index_bytes + n + d*(len*n) + h*n`, with
`index_bytes = ceil(h/8)` for XMSS^MT (`d > 1`) and `4` for XMSS. -/
theorem C9_signature_size (p : Params) (ctx : Context)
    (sig : SignatureBytes) (out : List Nat)
    (hctx : NewContext p = some ctx) (hm : sigMarshal ctx sig = some out) :
    out.length =
      4 + (if 1 < p.d then (p.fullHeight + 7) / 8 else 4) + p.n +
        p.d * (p.wotsLen * p.n) + p.fullHeight * p.n := by
  obtain ⟨-, -, hib, -, -, -, -, -, hsb, -⟩ := NewContext_spec p ctx hctx
  have hlen := sigWriteInto_length ctx sig _ out hm
  rw [List.length_replicate] at hlen
  rw [hlen, hsb, hib]
  omega

/-- Witness for C9: marshalling a signature under `C9ctx` yields
`4 + 4 + 16 + 1*(66*16) + 2*16 = 1112` bytes. -/
theorem C9_signature_size_witness :
    ((sigMarshal C9ctx ⟨0, [], []⟩).getD []).length =
      4 + 4 + 16 + 1 * (66 * 16) + 2 * 16 := by
  have h := C9_signature_size C9p C9ctx ⟨0, [], []⟩
    ((sigMarshal C9ctx ⟨0, [], []⟩).getD []) (by decide) (by rfl)
  simpa using h

/-! ### WOTS+ invertibility -/

/-- Chains compose: walking `a` steps from position `i` and then `b`
steps from position `i + a` equals walking `a + b` steps from `i`,
whenever the walk stays within the chain. -/
theorem wotsGenChain_split (W : Nat) (prims : HashPrims) (addr : Address) :
    ∀ (a i b : Nat) (v : List Nat), i + a + b ≤ W →
      wotsGenChain W prims addr (i + a) b (wotsGenChain W prims addr i a v) =
        wotsGenChain W prims addr i (a + b) v
  | 0, i, b, v, _ => by simp [wotsGenChain]
  | a + 1, i, b, v, h => by
    have hi : i < W := by omega
    have ih := wotsGenChain_split W prims addr a (i + 1) b
      (prims.F (addr.setHash i) v) (by omega)
    rw [Nat.add_right_comm a 1 b]
    rw [show i + (a + 1) = i + 1 + a from by omega]
    simp only [wotsGenChain, hi, if_true]
    exact ih

/-- Every digit the base-w state machine emits is below w. -/
theorem toBaseWAux_lt (logW W : Nat) (hW : 0 < W) :
    ∀ (k : Nat) (input : List Nat) (total bits : Nat),
      ∀ d ∈ toBaseWAux logW W input total bits k, d < W := by
  intro k
  induction k with
  | zero => intro input total bits d hd; simp [toBaseWAux] at hd
  | succ k ih =>
    intro input total bits d hd
    unfold toBaseWAux at hd
    by_cases hb : bits = 0
    · rw [if_pos hb] at hd
      cases input with
      | nil => simp at hd
      | cons b rest =>
        rcases List.mem_cons.1 hd with h | h
        · subst h; exact Nat.mod_lt _ hW
        · exact ih rest b (8 - logW) d h
    · rw [if_neg hb] at hd
      rcases List.mem_cons.1 hd with h | h
      · subst h; exact Nat.mod_lt _ hW
      · exact ih input total (bits - logW) d h

/-- The bytes of an encoded integer are bytes. -/
theorem encodeUint64_bytes (x : Nat) :
    ∀ (len : Nat), ByteSeq (encodeUint64 x len)
  | 0 => by intro b hb; simp [encodeUint64] at hb
  | len + 1 => by
    intro b hb
    unfold encodeUint64 at hb
    rcases List.mem_cons.1 hb with h | h
    · subst h; exact Nat.mod_lt _ (by omega)
    · exact encodeUint64_bytes x len b h

/-- Digits of `toBaseW` are below w (for `w = 256` because the input
is a byte sequence and the copy pads with zeros). -/
theorem toBaseW_lt (ctx : Context) (input : List Nat) (outLen : Nat)
    (hW : ctx.p.wotsW = 4 ∨ ctx.p.wotsW = 16 ∨ ctx.p.wotsW = 256)
    (hbytes : ByteSeq input) :
    ∀ d ∈ toBaseW ctx input outLen, d < ctx.p.wotsW := by
  intro d hd
  unfold toBaseW at hd
  by_cases h256 : ctx.p.wotsW = 256
  · rw [if_pos h256] at hd
    rcases List.mem_append.1 hd with h | h
    · rw [h256]; exact hbytes d (List.mem_of_mem_take h)
    · rw [List.eq_of_mem_replicate h, h256]; omega
  · rw [if_neg h256] at hd
    exact toBaseWAux_lt ctx.wotsLogW ctx.p.wotsW (by omega) outLen input 0 0
      d hd

/-- Every chain length computed from a byte-valid message is below w. -/
theorem wotsChainLengths_lt (ctx : Context) (msg : List Nat)
    (hW : ctx.p.wotsW = 4 ∨ ctx.p.wotsW = 16 ∨ ctx.p.wotsW = 256)
    (hbytes : ByteSeq msg) :
    ∀ d ∈ wotsChainLengths ctx msg, d < ctx.p.wotsW := by
  intro d hd
  unfold wotsChainLengths at hd
  rcases List.mem_append.1 hd with h | h
  · exact toBaseW_lt ctx msg ctx.wotsLen1 hW hbytes d h
  · exact toBaseW_lt ctx _ ctx.wotsLen2 hW (encodeUint64_bytes _ _) d h

/-- Defaulted indexing stays below w as well (the default digit is 0). -/
theorem wotsChainLengths_getD_lt (ctx : Context) (msg : List Nat) (i : Nat)
    (hW : ctx.p.wotsW = 4 ∨ ctx.p.wotsW = 16 ∨ ctx.p.wotsW = 256)
    (hbytes : ByteSeq msg) :
    (wotsChainLengths ctx msg).getD i 0 < ctx.p.wotsW := by
  rw [List.getD_eq_getElem?_getD]
  cases h : (wotsChainLengths ctx msg)[i]? with
  | none => simp; omega
  | some a =>
    simp only [Option.getD_some]
    exact wotsChainLengths_lt ctx msg hW hbytes a (List.getElem?_mem h)

/-- Defaulted indexing into a mapped range. -/
theorem rangeMap_getD {α : Type} (n : Nat) (f : Nat → α) (i : Nat) (d : α)
    (h : i < n) : ((List.range n).map f).getD i d = f i := by
  rw [List.getD_eq_getElem?_getD, List.getElem?_map, List.getElem?_range h]
  rfl

/-- Core of claim C7, chunk view: recovering a public key from a fresh
signature gives the generated public key. -/
theorem wots_invert (ctx : Context) (prims : HashPrims) (addr : Address)
    (msg : List Nat)
    (hW : ctx.p.wotsW = 4 ∨ ctx.p.wotsW = 16 ∨ ctx.p.wotsW = 256)
    (hbytes : ByteSeq msg) :
    wotsPkFromSig ctx prims addr (wotsSign ctx prims addr msg) msg =
      wotsPkGen ctx prims addr := by
  unfold wotsPkFromSig wotsSign wotsPkGen
  apply List.map_congr_left
  intro i hi
  rw [List.mem_range] at hi
  rw [rangeMap_getD ctx.wotsLen _ i [] hi]
  have hlt := wotsChainLengths_getD_lt ctx msg i hW hbytes
  have h0 : (0 : Nat) + (wotsChainLengths ctx msg).getD i 0 +
      (ctx.p.wotsW - 1 - (wotsChainLengths ctx msg).getD i 0) ≤
      ctx.p.wotsW := by omega
  have hsplit := wotsGenChain_split ctx.p.wotsW prims (addr.setChain i)
    ((wotsChainLengths ctx msg).getD i 0) 0
    (ctx.p.wotsW - 1 - (wotsChainLengths ctx msg).getD i 0)
    ((genWotsSk ctx prims addr).getD i []) h0
  simp only [Nat.zero_add] at hsplit
  rw [hsplit]
  congr 1
  omega

/-- Claim C7: for every key material (bundled in the hash primitives),
address and byte-valid message digest, `wotsPkFromSigInto` applied to
the output of `wotsSignInto` produces the same `len·n` bytes as
`wotsPkGenInto`. -/
theorem C7_wots_invertibility (p : Params) (ctx : Context)
    (prims : HashPrims) (addr : Address) (msg : List Nat)
    (hctx : NewContext p = some ctx) (hbytes : ByteSeq msg) :
    (wotsPkFromSig ctx prims addr (wotsSign ctx prims addr msg)
      msg).flatten = (wotsPkGen ctx prims addr).flatten := by
  obtain ⟨hp, -, -, -, -, -, -, -, -, -, -, -, hW⟩ := NewContext_spec p ctx hctx
  rw [wots_invert ctx prims addr msg (by rw [hp]; exact hW) hbytes]

/-- Witness for C7 on the concrete 16-byte instance. -/
theorem C7_wots_invertibility_witness :
    (wotsPkFromSig C9ctx demoPrims Address.zero
      (wotsSign C9ctx demoPrims Address.zero (List.replicate 16 3))
      (List.replicate 16 3)).flatten =
    (wotsPkGen C9ctx demoPrims Address.zero).flatten :=
  C7_wots_invertibility C9p C9ctx demoPrims Address.zero
    (List.replicate 16 3) (by decide) (by decide)

/-! ### Hypertree round trip -/

theorem xor_one_of_even (x : Nat) (hx : x % 2 = 0) : x ^^^ 1 = x + 1 := by
  apply Nat.eq_of_testBit_eq
  intro i
  cases i with
  | zero =>
    rw [Nat.testBit_xor]
    simp only [Nat.testBit_zero]
    have h1 : x % 2 ≠ 1 := by omega
    have h2 : (x + 1) % 2 = 1 := by omega
    simp [h1, h2]
  | succ i =>
    rw [Nat.testBit_xor, Nat.testBit_succ, Nat.testBit_succ, Nat.testBit_succ]
    have h1 : (1 : Nat) / 2 = 0 := by norm_num
    rw [h1, Nat.zero_testBit]
    have h2 : (x + 1) / 2 = x / 2 := by omega
    rw [h2]
    simp

theorem xor_one_of_odd (x : Nat) (hx : x % 2 = 1) : x ^^^ 1 = x - 1 := by
  apply Nat.eq_of_testBit_eq
  intro i
  cases i with
  | zero =>
    rw [Nat.testBit_xor]
    simp only [Nat.testBit_zero]
    have h2 : (x - 1) % 2 ≠ 1 := by omega
    simp [hx, h2]
  | succ i =>
    rw [Nat.testBit_xor, Nat.testBit_succ, Nat.testBit_succ, Nat.testBit_succ]
    have h1 : (1 : Nat) / 2 = 0 := by norm_num
    rw [h1, Nat.zero_testBit]
    have h2 : (x - 1) / 2 = x / 2 := by omega
    rw [h2]
    simp

theorem wotsGenChain_bytes (W : Nat) (prims : HashPrims) (addr : Address)
    (wf : WfPrims prims) :
    ∀ (steps i : Nat) (v : List Nat), ByteSeq v →
      ByteSeq (wotsGenChain W prims addr i steps v)
  | 0, _, _, hv => hv
  | steps + 1, i, v, hv => by
    unfold wotsGenChain
    by_cases hi : i < W
    · rw [if_pos hi]
      exact wotsGenChain_bytes W prims addr wf steps (i + 1) _ (wf.f_bytes _ _)
    · rw [if_neg hi]
      exact hv

theorem wotsPkGen_bytes (ctx : Context) (prims : HashPrims) (addr : Address)
    (wf : WfPrims prims) :
    ∀ c ∈ wotsPkGen ctx prims addr, ByteSeq c := by
  intro c hc
  unfold wotsPkGen at hc
  rcases List.mem_map.1 hc with ⟨i, -, hi⟩
  subst hi
  apply wotsGenChain_bytes _ _ _ wf
  unfold genWotsSk
  rw [List.getD_eq_getElem?_getD]
  cases h : ((List.range ctx.wotsLen).map
      (fun i => prims.prfKeyGen (((addr.setHash 0).setKeyAndMask 0).setChain i)))[i]? with
  | none =>
    simp only [Option.getD_none]
    intro b hb
    simp at hb
  | some a =>
    simp only [Option.getD_some]
    rcases List.mem_map.1 (List.getElem?_mem h) with ⟨j, -, hj⟩
    subst hj
    exact wf.keyGen_bytes _

theorem headD_bytes (cs : List (List Nat)) (h : ∀ c ∈ cs, ByteSeq c) :
    ByteSeq (cs.headD []) := by
  cases cs with
  | nil => intro b hb; simp at hb
  | cons c rest => exact h c (List.mem_cons_self c rest)

theorem lTreePairs_bytes (prims : HashPrims) (addr : Address)
    (wf : WfPrims prims) :
    ∀ (cs : List (List Nat)) (i : Nat), (∀ c ∈ cs, ByteSeq c) →
      ∀ c ∈ lTreePairs prims addr i cs, ByteSeq c
  | [], _, _ => by intro c hc; simp [lTreePairs] at hc
  | [x], _, h => by
    intro c hc
    simp only [lTreePairs, List.mem_singleton] at hc
    subst hc
    exact h _ (by simp)
  | x :: y :: rest, i, h => by
    intro c hc
    simp only [lTreePairs] at hc
    rcases List.mem_cons.1 hc with rfl | hc
    · exact wf.h_bytes _ _ _
    · exact lTreePairs_bytes prims addr wf rest (i + 1)
        (fun c hcr => h c (by simp [hcr])) c hc

theorem lTreeLoop_bytes (prims : HashPrims) (addr : Address)
    (wf : WfPrims prims) :
    ∀ (fuel height : Nat) (cs : List (List Nat)), (∀ c ∈ cs, ByteSeq c) →
      ByteSeq (lTreeLoop prims addr fuel height cs)
  | 0, _, cs, h => headD_bytes cs h
  | fuel + 1, height, cs, h => by
    unfold lTreeLoop
    by_cases hl : cs.length ≤ 1
    · rw [if_pos hl]; exact headD_bytes cs h
    · rw [if_neg hl]
      exact lTreeLoop_bytes prims addr wf fuel (height + 1) _
        (lTreePairs_bytes prims _ wf cs 0 h)

theorem subTreeNode_bytes (ctx : Context) (prims : HashPrims)
    (sta : SubTreeAddress) (wf : WfPrims prims) :
    ∀ (h idx : Nat), ByteSeq (subTreeNode ctx prims sta h idx)
  | 0, idx => by
    unfold subTreeNode genLeaf lTree
    exact lTreeLoop_bytes prims _ wf _ 0 _
      (wotsPkGen_bytes ctx prims _ wf)
  | h + 1, idx => by
    unfold subTreeNode
    exact wf.h_bytes _ _ _

/-- Unfolding equation for an internal Merkle node. -/
theorem subTreeNode_succ (ctx : Context) (prims : HashPrims)
    (sta : SubTreeAddress) (h idx : Nat) :
    subTreeNode ctx prims sta (h + 1) idx =
      prims.H
        ((((Address.zero.setSubTreeFrom sta.address).setType
          ADDR_TYPE_HASHTREE).setTreeHeight h).setTreeIndex idx)
        (subTreeNode ctx prims sta h (2 * idx))
        (subTreeNode ctx prims sta h (2 * idx + 1)) := rfl

/-- Climbing the authentication path of leaf `leaf` from its node at
height `h` reaches the subtree root: the inductive heart of
`VerifyFrom`'s inner loop. -/
theorem verifyClimb_spec (ctx : Context) (prims : HashPrims)
    (sta : SubTreeAddress) (leaf : Nat) (hleaf : leaf < 2 ^ ctx.treeHeight) :
    ∀ (j h : Nat), h + j = ctx.treeHeight →
      verifyClimbAux prims
        ((Address.zero.setSubTreeFrom sta.address).setType ADDR_TYPE_HASHTREE)
        (signAuthPath ctx prims sta leaf) j (h + 1) (leaf / 2 ^ h)
        (subTreeNode ctx prims sta h (leaf / 2 ^ h)) =
      subTreeNode ctx prims sta ctx.treeHeight 0
  | 0, h, hh => by
    have hht : h = ctx.treeHeight := by omega
    have h0 : leaf / 2 ^ h = 0 := Nat.div_eq_of_lt (hht ▸ hleaf)
    show subTreeNode ctx prims sta h (leaf / 2 ^ h) = _
    rw [h0, hht]
  | j + 1, h, hh => by
    have hhlt : h < ctx.treeHeight := by omega
    have hsib : (signAuthPath ctx prims sta leaf).getD h [] =
        subTreeNode ctx prims sta h (leaf / 2 ^ h ^^^ 1) := by
      unfold signAuthPath
      rw [List.getD_append _ _ _ _ (by simpa using hhlt)]
      exact rangeMap_getD ctx.treeHeight _ h [] hhlt
    have hdd : leaf / 2 ^ h / 2 = leaf / 2 ^ (h + 1) := by
      rw [Nat.div_div_eq_div_mul, pow_succ]
    have hstep :
        (if leaf / 2 ^ h % 2 = 0 then
          prims.H
            ((((Address.zero.setSubTreeFrom sta.address).setType
              ADDR_TYPE_HASHTREE).setTreeHeight (h + 1 - 1)).setTreeIndex
              (leaf / 2 ^ h / 2))
            (subTreeNode ctx prims sta h (leaf / 2 ^ h))
            ((signAuthPath ctx prims sta leaf).getD (h + 1 - 1) [])
        else
          prims.H
            ((((Address.zero.setSubTreeFrom sta.address).setType
              ADDR_TYPE_HASHTREE).setTreeHeight (h + 1 - 1)).setTreeIndex
              (leaf / 2 ^ h / 2))
            ((signAuthPath ctx prims sta leaf).getD (h + 1 - 1) [])
            (subTreeNode ctx prims sta h (leaf / 2 ^ h))) =
        subTreeNode ctx prims sta (h + 1) (leaf / 2 ^ h / 2) := by
      rw [Nat.add_sub_cancel, hsib]
      by_cases hpar : leaf / 2 ^ h % 2 = 0
      · rw [if_pos hpar]
        rw [xor_one_of_even _ hpar]
        rw [subTreeNode_succ]
        have h2a : 2 * (leaf / 2 ^ h / 2) = leaf / 2 ^ h := by omega
        rw [h2a]
      · have hodd : leaf / 2 ^ h % 2 = 1 := by omega
        rw [if_neg hpar]
        rw [xor_one_of_odd _ hodd]
        rw [subTreeNode_succ]
        have h2a : 2 * (leaf / 2 ^ h / 2) = leaf / 2 ^ h - 1 := by omega
        have h2b : leaf / 2 ^ h - 1 + 1 = leaf / 2 ^ h := by omega
        rw [h2a, h2b]
    have ih := verifyClimb_spec ctx prims sta leaf hleaf j (h + 1) (by omega)
    simp only [verifyClimbAux]
    rw [hstep, hdd]
    exact ih

/-- One layer of verification succeeds: when the layer's WOTS+
signature was made over the incoming message at this subtree's OTS
address and the authentication path is the subtree's, the layer
returns the subtree root. -/
theorem verifyLayer_spec (ctx : Context) (prims : HashPrims)
    (sta : SubTreeAddress) (leaf : Nat) (rxSig : HSubSig) (msgIn : List Nat)
    (hW : ctx.p.wotsW = 4 ∨ ctx.p.wotsW = 16 ∨ ctx.p.wotsW = 256)
    (hleaf : leaf < 2 ^ ctx.treeHeight) (hmsg : ByteSeq msgIn)
    (hwots : rxSig.wotsSig = wotsSign ctx prims (sta.address.setOTS leaf) msgIn)
    (hap : rxSig.authPath = signAuthPath ctx prims sta leaf) :
    verifyLayer ctx prims (sta, leaf) rxSig msgIn =
      subTreeRoot ctx prims sta := by
  unfold verifyLayer
  rw [hwots, hap]
  dsimp only
  have haddr : ((Address.zero.setSubTreeFrom sta.address).setType
      ADDR_TYPE_OTS).setOTS leaf = sta.address.setOTS leaf := rfl
  rw [haddr]
  rw [wots_invert ctx prims _ msgIn hW hmsg]
  have hcur : lTree prims
      (wotsPkGen ctx prims (sta.address.setOTS leaf))
      (((Address.zero.setSubTreeFrom sta.address).setType
        ADDR_TYPE_LTREE).setLTree leaf) =
      subTreeNode ctx prims sta 0 leaf := rfl
  rw [hcur]
  have hcl := verifyClimb_spec ctx prims sta leaf hleaf ctx.treeHeight 0
    (by omega)
  simp only [pow_zero, Nat.div_one] at hcl
  exact hcl

theorem msgAtLayer_bytes (ctx : Context) (prims : HashPrims) (seqNo : Nat)
    (mhash : List Nat) (wf : WfPrims prims) (hm : ByteSeq mhash) :
    ∀ ℓ, ByteSeq (msgAtLayer ctx prims seqNo mhash ℓ)
  | 0 => hm
  | _ + 1 => subTreeNode_bytes ctx prims _ wf _ _

theorem subTreePath_getD (ctx : Context) (seqNo ℓ : Nat)
    (hℓ : ℓ < ctx.p.d) :
    (subTreePath ctx seqNo).getD ℓ (⟨0, 0⟩, 0) =
      (⟨ℓ, seqNo / 2 ^ ((ℓ + 1) * ctx.treeHeight)⟩,
        seqNo / 2 ^ (ℓ * ctx.treeHeight) % 2 ^ ctx.treeHeight % 2 ^ 32) := by
  unfold subTreePath
  exact rangeMap_getD ctx.p.d _ ℓ _ hℓ

theorem signAt_sigs_zero (ctx : Context) (prims : HashPrims)
    (seqNo : Nat) (msg : List Nat) :
    (signAt ctx prims seqNo msg).sigs.getD 0 ⟨[], []⟩ =
      ⟨wotsSign ctx prims
        (((subTreePath ctx seqNo).getD 0 (⟨0, 0⟩, 0)).1.address.setOTS
          ((subTreePath ctx seqNo).getD 0 (⟨0, 0⟩, 0)).2)
        (signMsgHash ctx prims seqNo msg),
        signAuthPath ctx prims ((subTreePath ctx seqNo).getD 0 (⟨0, 0⟩, 0)).1
          ((subTreePath ctx seqNo).getD 0 (⟨0, 0⟩, 0)).2⟩ := rfl

theorem signAt_sigs_succ (ctx : Context) (prims : HashPrims)
    (seqNo : Nat) (msg : List Nat) (j : Nat) (hj : j + 1 < ctx.p.d) :
    (signAt ctx prims seqNo msg).sigs.getD (j + 1) ⟨[], []⟩ =
      ⟨subTreeRootSig ctx prims
        ((subTreePath ctx seqNo).getD j (⟨0, 0⟩, 0)).1,
        signAuthPath ctx prims
          ((subTreePath ctx seqNo).getD (j + 1) (⟨0, 0⟩, 0)).1
          ((subTreePath ctx seqNo).getD (j + 1) (⟨0, 0⟩, 0)).2⟩ := by
  show (List.getD (_ :: _) (j + 1) _) = _
  rw [List.getD_cons_succ]
  exact rangeMap_getD (ctx.p.d - 1) _ j _ (by omega)

theorem signAt_seqNo (ctx : Context) (prims : HashPrims) (seqNo : Nat)
    (msg : List Nat) : (signAt ctx prims seqNo msg).seqNo = seqNo := rfl

theorem signAt_drv (ctx : Context) (prims : HashPrims) (seqNo : Nat)
    (msg : List Nat) :
    (signAt ctx prims seqNo msg).drv = prims.prfU64 seqNo := rfl

/-- The layer fold of `VerifyFrom` on a signature produced by `Sign`
walks from the message hash up to the top subtree root. -/
theorem verify_fold_aux (ctx : Context) (prims : HashPrims) (seqNo : Nat)
    (msg : List Nat) (wf : WfPrims prims)
    (hW : ctx.p.wotsW = 4 ∨ ctx.p.wotsW = 16 ∨ ctx.p.wotsW = 256) :
    ∀ (r s : Nat), s + r = ctx.p.d →
      List.foldl
        (fun rx layer =>
          verifyLayer ctx prims
            ((subTreePath ctx seqNo).getD layer (⟨0, 0⟩, 0))
            ((signAt ctx prims seqNo msg).sigs.getD layer ⟨[], []⟩) rx)
        (msgAtLayer ctx prims seqNo (signMsgHash ctx prims seqNo msg) s)
        (List.range' s r) =
      msgAtLayer ctx prims seqNo (signMsgHash ctx prims seqNo msg) (s + r)
  | 0, s, _ => by simp [List.range']
  | r + 1, s, hs => by
    have hsd : s < ctx.p.d := by omega
    rw [List.range'_succ, List.foldl_cons]
    have hleafS :
        seqNo / 2 ^ (s * ctx.treeHeight) % 2 ^ ctx.treeHeight % 2 ^ 32 <
          2 ^ ctx.treeHeight :=
      lt_of_le_of_lt (Nat.mod_le _ _)
        (Nat.mod_lt _ (Nat.pos_pow_of_pos _ (by omega)))
    have hmsgS : ByteSeq
        (msgAtLayer ctx prims seqNo (signMsgHash ctx prims seqNo msg) s) :=
      msgAtLayer_bytes ctx prims seqNo _ wf (wf.hmsg_bytes _ _ _ _) s
    have hstep :
        verifyLayer ctx prims
          ((subTreePath ctx seqNo).getD s (⟨0, 0⟩, 0))
          ((signAt ctx prims seqNo msg).sigs.getD s ⟨[], []⟩)
          (msgAtLayer ctx prims seqNo (signMsgHash ctx prims seqNo msg) s) =
        msgAtLayer ctx prims seqNo (signMsgHash ctx prims seqNo msg)
          (s + 1) := by
      cases s with
      | zero =>
        rw [signAt_sigs_zero, subTreePath_getD ctx seqNo 0 hsd]
        exact verifyLayer_spec ctx prims _ _ _ _ hW hleafS hmsgS rfl rfl
      | succ j =>
        rw [signAt_sigs_succ ctx prims seqNo msg j hsd,
          subTreePath_getD ctx seqNo (j + 1) hsd,
          subTreePath_getD ctx seqNo j (by omega)]
        have hparent :
            parentOf ctx
              (⟨j, seqNo / 2 ^ ((j + 1) * ctx.treeHeight)⟩ : SubTreeAddress) =
              ⟨j + 1, seqNo / 2 ^ ((j + 1 + 1) * ctx.treeHeight)⟩ := by
          unfold parentOf
          simp only [SubTreeAddress.mk.injEq, true_and]
          rw [Nat.div_div_eq_div_mul, ← pow_add]
          congr 1
          ring
        have hwots :
            subTreeRootSig ctx prims
              (⟨j, seqNo / 2 ^ ((j + 1) * ctx.treeHeight)⟩ :
                SubTreeAddress) =
            wotsSign ctx prims
              ((⟨j + 1, seqNo / 2 ^ ((j + 1 + 1) * ctx.treeHeight)⟩ :
                SubTreeAddress).address.setOTS
                (seqNo / 2 ^ ((j + 1) * ctx.treeHeight) %
                  2 ^ ctx.treeHeight % 2 ^ 32))
              (msgAtLayer ctx prims seqNo
                (signMsgHash ctx prims seqNo msg) (j + 1)) := by
          unfold subTreeRootSig
          rw [hparent]
          rfl
        exact verifyLayer_spec ctx prims _ _ _ _ hW hleafS hmsgS
          (by rw [hwots]) rfl
    rw [hstep]
    have ih := verify_fold_aux ctx prims seqNo msg wf hW r (s + 1)
      (by omega)
    rw [show s + (r + 1) = s + 1 + r from by omega]
    exact ih

/-- Claim C1: for every parameter set accepted by `NewContext` and
every key material (bundled in well-formed hash primitives), the
signature `Sign` produces at any in-range sequence number verifies
under the derived public key: `Verify` returns true. -/
theorem C1_sign_verify_roundtrip (p : Params) (ctx : Context)
    (prims : HashPrims) (seqNo : Nat) (msg : List Nat)
    (hctx : NewContext p = some ctx) (wf : WfPrims prims)
    (hseq : seqNo ≤ p.maxSignatureSeqNo) :
    verify ctx prims (skRoot ctx prims) (signAt ctx prims seqNo msg) msg =
      true := by
  obtain ⟨hp, hth, -, -, -, -, -, -, -, -, hd0, hmod, hW⟩ :=
    NewContext_spec p ctx hctx
  unfold verify
  rw [signAt_seqNo, signAt_drv]
  have hfold := verify_fold_aux ctx prims seqNo msg wf
    (by rw [hp]; exact hW) ctx.p.d 0 (by omega)
  rw [List.range_eq_range']
  dsimp only
  rw [show prims.Hmsg msg (prims.prfU64 seqNo) (skRoot ctx prims) seqNo =
    msgAtLayer ctx prims seqNo (signMsgHash ctx prims seqNo msg) 0 from rfl]
  rw [hfold]
  have hd0' : 0 < ctx.p.d := by rw [hp]; exact hd0
  have hd1 : ctx.p.d = (ctx.p.d - 1) + 1 := by omega
  rw [show (0 : Nat) + ctx.p.d = (ctx.p.d - 1) + 1 from by omega]
  show decide (subTreeRoot ctx prims
    ⟨ctx.p.d - 1, seqNo / 2 ^ ((ctx.p.d - 1 + 1) * ctx.treeHeight)⟩ =
    skRoot ctx prims) = true
  have hzero : seqNo / 2 ^ ((ctx.p.d - 1 + 1) * ctx.treeHeight) = 0 := by
    apply Nat.div_eq_of_lt
    have hdt : (ctx.p.d - 1 + 1) * ctx.treeHeight = p.fullHeight := by
      rw [← hd1, hth, hp]
      exact Nat.mul_div_cancel' (Nat.dvd_of_mod_eq_zero hmod)
    rw [hdt]
    unfold Params.maxSignatureSeqNo at hseq
    have hpos : 0 < 2 ^ p.fullHeight := Nat.pos_pow_of_pos _ (by omega)
    omega
  rw [hzero]
  unfold skRoot
  rw [hp]
  simp

/-- The demo primitives produce byte sequences. -/
theorem demoPrims_wf : WfPrims demoPrims := by
  constructor
  · intro a v b hb
    simp only [demoPrims] at hb
    rw [List.eq_of_mem_replicate hb]
    exact Nat.mod_lt _ (by omega)
  · intro a v w b hb
    simp only [demoPrims] at hb
    rw [List.eq_of_mem_replicate hb]
    exact Nat.mod_lt _ (by omega)
  · intro a b hb
    simp only [demoPrims] at hb
    rw [List.eq_of_mem_replicate hb]
    exact Nat.mod_lt _ (by omega)
  · intro m r rt i b hb
    simp only [demoPrims] at hb
    rw [List.eq_of_mem_replicate hb]
    exact Nat.mod_lt _ (by omega)

/-- Witness for C1 on the concrete two-layer instance, first
signature. -/
theorem C1_sign_verify_roundtrip_witness :
    verify C1ctx demoPrims (skRoot C1ctx demoPrims)
      (signAt C1ctx demoPrims 0 [1, 2]) [1, 2] = true :=
  C1_sign_verify_roundtrip (Params.mk SHA2 16 2 2 4 RFC) C1ctx demoPrims 0
    [1, 2] (by decide) demoPrims_wf (by decide)

/-- `encodeUint64` produces exactly `len` bytes. -/
theorem encodeUint64_length (x : Nat) : ∀ len, (encodeUint64 x len).length = len
  | 0 => rfl
  | len + 1 => by simp [encodeUint64, encodeUint64_length x len]

/-- Decoding an encoded value recovers it modulo `2^(8*len)` (the
big-endian byte split of `encodeUint64` truncates to `len` bytes). -/
theorem decode_encode (x : Nat) :
    ∀ len, decodeUint64 (encodeUint64 x len) = x % 2 ^ (8 * len)
  | 0 => by simp [encodeUint64, decodeUint64, Nat.mod_one]
  | len + 1 => by
    unfold encodeUint64 decodeUint64
    rw [encodeUint64_length, decode_encode x len]
    have h : (2 : Nat) ^ (8 * (len + 1)) = 2 ^ (8 * len) * 256 := by
      rw [show 8 * (len + 1) = 8 * len + 8 from by ring, pow_add]
      norm_num
    rw [h, Nat.mod_mul]
    ring

/-- Serialised parameters decode back to the parameters: the 4-byte
compressed header built by `Params.writeInto` is accepted by
`Params.unmarshalBinary` and yields the same `Params` (for nonzero
`n`; the bit fields are disjoint, so each field is recovered by the
corresponding shift and mask). -/
theorem params_writeInto_roundtrip (p : Params) (bs : List Nat)
    (hn0 : 0 < p.n) (h : p.writeInto = some bs) :
    Params.unmarshalBinary bs = some p := by
  unfold Params.writeInto at h
  split_ifs at h with h1 h2 h3 h4 h5 h6
  cases hw : wCodeOf p.wotsW with
  | none => rw [hw] at h; exact absurd h (by simp)
  | some wCode =>
    rw [hw] at h
    simp only [Option.some.injEq] at h
    subst h
    have hwfacts : (wCode = 0 ∧ p.wotsW = 4) ∨ (wCode = 1 ∧ p.wotsW = 16) ∨
        (wCode = 2 ∧ p.wotsW = 256) := by
      unfold wCodeOf at hw
      split_ifs at hw with a b c <;> simp_all
    have hwle : wCode ≤ 2 := by
      rcases hwfacts with ⟨h, _⟩ | ⟨h, _⟩ | ⟨h, _⟩ <;> omega
    have hprf : p.prf = 0 ∨ p.prf = 1 := by
      by_contra hc
      push_neg at hc
      exact h6 ⟨hc.1, hc.2⟩
    set val := 0xea * 2 ^ 24 + p.prf * 2 ^ 20 + (p.n / 8 - 1) * 2 ^ 16 +
        p.func * 2 ^ 14 + wCode * 2 ^ 12 + p.fullHeight * 2 ^ 6 + p.d
      with hval
    have hvlt : val < 2 ^ 32 := by rw [hval]; omega
    unfold Params.unmarshalBinary
    rw [if_neg (by rw [encodeUint64_length]; omega)]
    have hdec : decodeUint64 (encodeUint64 val 4) = val := by
      rw [decode_encode]
      exact Nat.mod_eq_of_lt (by omega)
    simp only [hdec]
    rw [if_neg (by omega), if_neg (by omega), if_neg (by omega)]
    have e1 : val / 2 ^ 14 % 2 ^ 2 = p.func := by omega
    have e2 : (val / 2 ^ 16 % 2 ^ 4 + 1) * 8 = p.n := by omega
    have e3 : val / 2 ^ 6 % 2 ^ 6 = p.fullHeight := by omega
    have e4 : val % 2 ^ 6 = p.d := by omega
    have e5 : val / 2 ^ 12 % 2 ^ 2 = wCode := by omega
    have e6 : val / 2 ^ 20 % 2 = p.prf := by omega
    simp only [e1, e2, e3, e4, e5, e6, Option.some.injEq]
    rcases hwfacts with ⟨hc, hww⟩ | ⟨hc, hww⟩ | ⟨hc, hww⟩ <;>
      rcases hprf with hp | hp <;>
      subst hc <;>
      cases p <;>
      simp_all [RFC, NIST]

/-- A successful `Params.writeInto` returns exactly 4 bytes. -/
theorem params_writeInto_length (p : Params) (bs : List Nat)
    (h : p.writeInto = some bs) : bs.length = 4 := by
  unfold Params.writeInto at h
  split_ifs at h
  cases hw : wCodeOf p.wotsW with
  | none => rw [hw] at h; exact absurd h (by simp)
  | some wCode =>
    rw [hw] at h
    simp only [Option.some.injEq] at h
    subst h
    exact encodeUint64_length _ 4

/-- `listCopy` on a window of exactly the source length replaces that
window and nothing else. -/
theorem listCopy_exact (pre mid post src : List Nat)
    (hlen : mid.length = src.length) :
    listCopy (pre ++ (mid ++ post)) pre.length src = pre ++ (src ++ post) := by
  unfold listCopy
  have h1 : (pre ++ (mid ++ post)).take pre.length = pre :=
    List.take_left pre (mid ++ post)
  have h2 : src.take ((pre ++ (mid ++ post)).length - pre.length) = src := by
    apply List.take_of_length_le
    simp
    omega
  have h3 : (pre ++ (mid ++ post)).drop (pre.length + src.length) = post := by
    rw [← List.append_assoc]
    rw [show pre.length + src.length = (pre ++ mid).length from by simp [hlen]]
    exact List.drop_left _ _
  rw [h1, h2, h3, List.append_assoc]

/-- The copy loop of `Signature.WriteInto` lays the layers out
back-to-back: starting from a prefix of exactly `stOff + i*stLen`
bytes followed by zeros, it appends `wotsSig ++ authPath` of each
layer in order. -/
theorem writeSubSigs_concat (stOff stLen wsb : Nat) :
    ∀ (sigs : List SubTreeSigBytes) (i : Nat) (pre : List Nat),
      pre.length = stOff + i * stLen →
      (∀ s ∈ sigs, s.wotsSig.length = wsb ∧
        s.authPath.length = stLen - wsb) →
      wsb ≤ stLen →
      writeSubSigs stOff stLen wsb i sigs
        (pre ++ List.replicate (sigs.length * stLen) 0) =
      pre ++ (sigs.map (fun s => s.wotsSig ++ s.authPath)).flatten
  | [], _, pre, _, _, _ => by simp [writeSubSigs]
  | s :: rest, i, pre, hpre, hwf, hle => by
    obtain ⟨hws, hap⟩ := hwf s (by simp)
    unfold writeSubSigs
    dsimp only
    have hsplit : List.replicate ((s :: rest).length * stLen) (0 : Nat) =
        List.replicate wsb 0 ++ (List.replicate (stLen - wsb) 0 ++
          List.replicate (rest.length * stLen) 0) := by
      rw [← List.replicate_add, ← List.replicate_add]
      congr 1
      rw [List.length_cons, Nat.succ_mul]
      omega
    rw [hsplit]
    rw [show stOff + i * stLen = pre.length from hpre.symm]
    rw [listCopy_exact pre (List.replicate wsb 0)
      (List.replicate (stLen - wsb) 0 ++ List.replicate (rest.length * stLen) 0)
      s.wotsSig (by simp [hws])]
    rw [show pre ++ (s.wotsSig ++ (List.replicate (stLen - wsb) 0 ++
        List.replicate (rest.length * stLen) 0)) =
      (pre ++ s.wotsSig) ++ (List.replicate (stLen - wsb) 0 ++
        List.replicate (rest.length * stLen) 0) from by simp]
    rw [show pre.length + wsb = (pre ++ s.wotsSig).length from by simp [hws]]
    rw [listCopy_exact (pre ++ s.wotsSig) (List.replicate (stLen - wsb) 0)
      (List.replicate (rest.length * stLen) 0) s.authPath (by simp [hap])]
    rw [show (pre ++ s.wotsSig) ++ (s.authPath ++
        List.replicate (rest.length * stLen) 0) =
      (pre ++ s.wotsSig ++ s.authPath) ++
        List.replicate (rest.length * stLen) 0 from by simp]
    rw [writeSubSigs_concat stOff stLen wsb rest (i + 1)
      (pre ++ s.wotsSig ++ s.authPath)
      (by simp [hws, hap, hpre, Nat.succ_mul]; omega)
      (fun t ht => hwf t (by simp [ht])) hle]
    simp

/-- `listCopy` at offset 0 over an exact-length window. -/
theorem listCopy_exact0 (mid post src : List Nat)
    (hlen : mid.length = src.length) :
    listCopy (mid ++ post) 0 src = src ++ post := by
  have h := listCopy_exact [] mid post src hlen
  simpa using h

theorem sigMarshal_concat (p : Params) (ctx : Context) (sig : SignatureBytes)
    (hdr : List Nat)
    (hctx : NewContext p = some ctx)
    (hhdr : p.writeInto = some hdr)
    (hdrv : sig.drv.length = p.n)
    (hd : sig.sigs.length = p.d)
    (hwf : ∀ s ∈ sig.sigs, s.wotsSig.length = ctx.wotsSigBytes ∧
      s.authPath.length = p.n * ctx.treeHeight) :
    sigMarshal ctx sig = some (hdr ++ (encodeUint64 sig.seqNo ctx.indexBytes ++
      (sig.drv ++ (sig.sigs.map (fun s => s.wotsSig ++ s.authPath)).flatten))) := by
  obtain ⟨hp, hth, hib, -, -, -, -, hwsb, hsb, hn, hd0, hdvd, -⟩ :=
    NewContext_spec p ctx hctx
  have hlen4 : hdr.length = 4 := params_writeInto_length p hdr hhdr
  have hfh : p.fullHeight * p.n = p.d * (p.n * ctx.treeHeight) := by
    rw [hth, show p.n * (p.fullHeight / p.d) = (p.fullHeight / p.d) * p.n from
      Nat.mul_comm _ _, ← Nat.mul_assoc,
      Nat.mul_div_cancel' (Nat.dvd_of_mod_eq_zero hdvd)]
  have hbuf : List.replicate (4 + ctx.sigBytes) (0 : Nat) =
      List.replicate 4 0 ++ (List.replicate ctx.indexBytes 0 ++
        (List.replicate p.n 0 ++ List.replicate
          (sig.sigs.length * (ctx.wotsSigBytes + p.n * ctx.treeHeight)) 0)) := by
    rw [← List.replicate_add, ← List.replicate_add, ← List.replicate_add]
    congr 1
    rw [hsb, hd, Nat.mul_add, ← hwsb, hfh]
    ring
  unfold sigMarshal sigWriteInto
  rw [hp, hhdr]
  dsimp only
  rw [hbuf]
  rw [listCopy_exact0 (List.replicate 4 0) _ hdr (by simp [hlen4])]
  rw [show (4 : Nat) = hdr.length from hlen4.symm]
  rw [listCopy_exact hdr (List.replicate ctx.indexBytes 0) _
    (encodeUint64 sig.seqNo ctx.indexBytes) (by simp [encodeUint64_length])]
  rw [show hdr ++ (encodeUint64 sig.seqNo ctx.indexBytes ++
      (List.replicate p.n 0 ++ List.replicate
        (sig.sigs.length * (ctx.wotsSigBytes + p.n * ctx.treeHeight)) 0)) =
    (hdr ++ encodeUint64 sig.seqNo ctx.indexBytes) ++
      (List.replicate p.n 0 ++ List.replicate
        (sig.sigs.length * (ctx.wotsSigBytes + p.n * ctx.treeHeight)) 0)
    from by simp]
  rw [show hdr.length + ctx.indexBytes =
    (hdr ++ encodeUint64 sig.seqNo ctx.indexBytes).length from by
      simp [encodeUint64_length]]
  rw [listCopy_exact (hdr ++ encodeUint64 sig.seqNo ctx.indexBytes)
    (List.replicate p.n 0) _ sig.drv (by simp [hdrv])]
  rw [show (hdr ++ encodeUint64 sig.seqNo ctx.indexBytes) ++ (sig.drv ++
      List.replicate
        (sig.sigs.length * (ctx.wotsSigBytes + p.n * ctx.treeHeight)) 0) =
    ((hdr ++ encodeUint64 sig.seqNo ctx.indexBytes) ++ sig.drv) ++
      List.replicate
        (sig.sigs.length * (ctx.wotsSigBytes + p.n * ctx.treeHeight)) 0
    from by simp]
  rw [writeSubSigs_concat _ _ _ sig.sigs 0
    ((hdr ++ encodeUint64 sig.seqNo ctx.indexBytes) ++ sig.drv)
    (by simp [hlen4, encodeUint64_length, hdrv]; omega)
    (fun t ht => ⟨(hwf t ht).1, by have := (hwf t ht).2; omega⟩)
    (by omega)]
  simp

/-- `readBuf` of an exact-length window that sits at the end of a known
prefix returns exactly that window. -/
theorem readBuf_at (pre w post : List Nat) (len : Nat)
    (hw : w.length = len) :
    readBuf (pre ++ (w ++ post)) pre.length len = w := by
  unfold readBuf
  rw [List.drop_left]
  dsimp only
  rw [List.take_left' hw, hw]
  simp

/-- Reading layer `j` out of the flattened layer area recovers that
layer's WOTS+ signature and authentication path. -/
theorem readSubSig_layer (wsb apl : Nat) :
    ∀ (sigs : List SubTreeSigBytes) (j : Nat) (pre : List Nat)
      (s : SubTreeSigBytes),
      sigs[j]? = some s →
      (∀ t ∈ sigs, t.wotsSig.length = wsb ∧ t.authPath.length = apl) →
      readBuf (pre ++ (sigs.map (fun t => t.wotsSig ++ t.authPath)).flatten)
          (pre.length + j * (wsb + apl)) wsb = s.wotsSig ∧
      readBuf (pre ++ (sigs.map (fun t => t.wotsSig ++ t.authPath)).flatten)
          (pre.length + j * (wsb + apl) + wsb) apl = s.authPath
  | [], j, pre, s, hj, _ => by simp at hj
  | t :: rest, 0, pre, s, hj, hwf => by
    have hst : t = s := by simpa using hj
    subst hst
    obtain ⟨hws, hap⟩ := hwf t (by simp)
    have hfl : ((t :: rest).map
        (fun u => u.wotsSig ++ u.authPath)).flatten =
        t.wotsSig ++ (t.authPath ++
          (rest.map (fun u => u.wotsSig ++ u.authPath)).flatten) := by
      simp
    constructor
    · rw [hfl, show pre.length + 0 * (wsb + apl) = pre.length from by simp]
      exact readBuf_at pre t.wotsSig _ wsb hws
    · rw [hfl]
      rw [show pre ++ (t.wotsSig ++ (t.authPath ++
          (rest.map (fun u => u.wotsSig ++ u.authPath)).flatten)) =
        (pre ++ t.wotsSig) ++ (t.authPath ++
          (rest.map (fun u => u.wotsSig ++ u.authPath)).flatten) from by simp]
      rw [show pre.length + 0 * (wsb + apl) + wsb =
        (pre ++ t.wotsSig).length from by simp [hws]]
      exact readBuf_at (pre ++ t.wotsSig) t.authPath _ apl hap
  | t :: rest, j + 1, pre, s, hj, hwf => by
    simp only [List.getElem?_cons_succ] at hj
    obtain ⟨hws, hap⟩ := hwf t (by simp)
    have hfl : ((t :: rest).map
        (fun u => u.wotsSig ++ u.authPath)).flatten =
        t.wotsSig ++ t.authPath ++
          (rest.map (fun u => u.wotsSig ++ u.authPath)).flatten := by
      simp
    have hre : pre ++ ((t :: rest).map
        (fun u => u.wotsSig ++ u.authPath)).flatten =
      (pre ++ t.wotsSig ++ t.authPath) ++
        (rest.map (fun u => u.wotsSig ++ u.authPath)).flatten := by
      rw [hfl]; simp
    have hoff : pre.length + (j + 1) * (wsb + apl) =
        (pre ++ t.wotsSig ++ t.authPath).length + j * (wsb + apl) := by
      simp only [List.length_append, hws, hap, Nat.succ_mul]
      omega
    have ih := readSubSig_layer wsb apl rest j
      (pre ++ t.wotsSig ++ t.authPath) s hj
      (fun u hu => hwf u (by simp [hu]))
    rw [hre, hoff]
    exact ih

theorem sigUnmarshal_concat (p : Params) (ctx : Context)
    (sig : SignatureBytes) (hdr : List Nat)
    (hctx : NewContext p = some ctx)
    (hhdr : p.writeInto = some hdr)
    (hseq : sig.seqNo < 2 ^ (8 * ctx.indexBytes))
    (hdrv : sig.drv.length = p.n)
    (hd : sig.sigs.length = p.d)
    (hwf : ∀ s ∈ sig.sigs, s.wotsSig.length = ctx.wotsSigBytes ∧
      s.authPath.length = p.n * ctx.treeHeight) :
    sigUnmarshal (hdr ++ (encodeUint64 sig.seqNo ctx.indexBytes ++
      (sig.drv ++
        (sig.sigs.map (fun s => s.wotsSig ++ s.authPath)).flatten))) =
    some (ctx, sig) := by
  obtain ⟨hp, hth, hib, -, -, -, -, hwsb, hsb, hn, hd0, hdvd, -⟩ :=
    NewContext_spec p ctx hctx
  have hlen4 : hdr.length = 4 := params_writeInto_length p hdr hhdr
  set enc := encodeUint64 sig.seqNo ctx.indexBytes with henc
  set flat := (sig.sigs.map (fun s => s.wotsSig ++ s.authPath)).flatten
    with hflat
  unfold sigUnmarshal
  rw [List.take_left' hlen4]
  rw [params_writeInto_roundtrip p hdr (by omega) hhdr]
  dsimp only
  rw [hctx]
  dsimp only
  simp only [Option.some.injEq, Prod.mk.injEq]
  refine ⟨trivial, ?_⟩
  rw [show sig = ⟨sig.seqNo, sig.drv, sig.sigs⟩ from rfl]
  simp only [SignatureBytes.mk.injEq]
  refine ⟨?_, ?_, ?_⟩
  · rw [List.drop_left' hlen4]
    rw [List.take_left' (by rw [henc]; exact encodeUint64_length _ _)]
    rw [henc, decode_encode]
    exact Nat.mod_eq_of_lt hseq
  · rw [show hdr ++ (enc ++ (sig.drv ++ flat)) =
      (hdr ++ enc) ++ (sig.drv ++ flat) from by simp]
    rw [show 4 + ctx.indexBytes = (hdr ++ enc).length from by
      simp [hlen4, henc, encodeUint64_length]]
    exact readBuf_at _ _ _ _ hdrv
  · apply List.ext_getElem (by simpa using hd.symm)
    intro i hi1 hi2
    simp only [List.getElem_map, List.getElem_range]
    have hget : sig.sigs[i]? = some sig.sigs[i] :=
      List.getElem?_eq_getElem hi2
    obtain ⟨hw1, hw2⟩ := readSubSig_layer ctx.wotsSigBytes
      (p.n * ctx.treeHeight) sig.sigs i (hdr ++ enc ++ sig.drv)
      sig.sigs[i] hget hwf
    rw [show hdr ++ (enc ++ (sig.drv ++ flat)) =
      (hdr ++ enc ++ sig.drv) ++ flat from by simp]
    rw [show 4 + ctx.indexBytes + p.n =
      (hdr ++ enc ++ sig.drv).length from by
        simp [hlen4, henc, encodeUint64_length, hdrv]
        omega]
    rw [← hflat] at hw1 hw2
    rw [hw1, hw2]

set_option maxRecDepth 40000 in
/-- Counterexample to claim C10 as stated: the signature `C10sig` has
a parameter header that is accepted (`NewContext` succeeds on `C10p`
and marshalling succeeds), yet unmarshalling the marshalled bytes
reconstructs sequence number `0` instead of `2^32`: for `d = 1` the
index field has 4 bytes while `h = 33` allows sequence numbers up to
`2^33 - 1`, and `encodeUint64` truncates. -/
theorem C10_counterexample :
    NewContext C10p = some C10ctx ∧
    C10sig.seqNo = 2 ^ 32 ∧
    ((sigMarshal C10ctx C10sig).bind sigUnmarshal).map
      (fun r => r.2.seqNo) = some 0 := by
  refine ⟨by decide, by decide, ?_⟩
  rfl

/-- Claim C10 (amended): signature serialisation round-trips for every
well-formed signature whose sequence number fits in `indexBytes`
bytes: if `NewContext` accepts the parameters, marshalling succeeds,
`seqNo < 2^(8*indexBytes)`, the randomiser has `n` bytes and each of
the `d` layers has a `wotsSigBytes`-byte WOTS+ signature and an
`n*treeHeight`-byte authentication path, then `UnmarshalBinary` of
`MarshalBinary` rebuilds the same context and a signature with the
same `seqNo`, the same `drv` and the same per-layer `wotsSig` and
`authPath` bytes (each reconstructed authentication path having
`treeHeight*n` bytes).  Without the `seqNo` bound the round-trip
fails, see the counterexample. -/
theorem C10_signature_roundtrip (p : Params) (ctx : Context)
    (sig : SignatureBytes) (bs : List Nat)
    (hctx : NewContext p = some ctx)
    (hmar : sigMarshal ctx sig = some bs)
    (hseq : sig.seqNo < 2 ^ (8 * ctx.indexBytes))
    (hdrv : sig.drv.length = p.n)
    (hd : sig.sigs.length = p.d)
    (hwf : ∀ s ∈ sig.sigs, s.wotsSig.length = ctx.wotsSigBytes ∧
      s.authPath.length = p.n * ctx.treeHeight) :
    sigUnmarshal bs = some (ctx, sig) := by
  have hp : ctx.p = p := (NewContext_spec p ctx hctx).1
  obtain ⟨hdr, hhdr⟩ : ∃ hdr, p.writeInto = some hdr := by
    unfold sigMarshal sigWriteInto at hmar
    rw [hp] at hmar
    cases hh : p.writeInto with
    | none => rw [hh] at hmar; exact absurd hmar (by simp)
    | some hdr => exact ⟨hdr, rfl⟩
  have hcat := sigMarshal_concat p ctx sig hdr hctx hhdr hdrv hd hwf
  rw [hmar] at hcat
  have hbs := Option.some.inj hcat
  rw [hbs]
  exact sigUnmarshal_concat p ctx sig hdr hctx hhdr hseq hdrv hd hwf

set_option maxRecDepth 40000 in
/-- Witness for C10 on the concrete XMSS instance `C9p`,
sequence number 5. -/
theorem C10_signature_roundtrip_witness :
    sigUnmarshal ((sigMarshal C9ctx C10wsig).getD []) =
      some (C9ctx, C10wsig) :=
  C10_signature_roundtrip C9p C9ctx C10wsig
    ((sigMarshal C9ctx C10wsig).getD []) (by decide) rfl (by decide)
    (by decide) (by decide) (by decide)

/-! ### The subtree cache (C2) -/

/-- Marking a record checked after a successful checksum comparison
preserves the cache invariant. -/
theorem CacheWf_mark (hash : List Nat → Nat) (st : CacheState)
    (sta : SubTreeAddress) (r₀ : STRecord) (hWf : CacheWf hash st)
    (hrec : st.recs sta = some r₀) (hok : hash r₀.body = r₀.checksum) :
    CacheWf hash (st.setChecked sta true) := by
  intro a q hq hready hch
  by_cases ha : a = sta
  · subst ha
    simp only [CacheState.setChecked] at hq hready
    rw [hrec] at hq
    simp only [Option.some.injEq] at hq
    rw [← hq]
    exact hok
  · simp only [CacheState.setChecked, if_neg ha] at hq hready hch
    exact hWf a q hq hready hch

/-- Writing a verified record and marking it ready and checked
preserves the cache invariant. -/
theorem CacheWf_set (hash : List Nat → Nat) (st : CacheState)
    (sta : SubTreeAddress) (r : STRecord) (hWf : CacheWf hash st)
    (hr : hash r.body = r.checksum) :
    CacheWf hash (((st.setRec sta r).setReady sta true).setChecked
      sta true) := by
  intro a q hq hready hch
  by_cases ha : a = sta
  · subst ha
    simp [CacheState.setRec, CacheState.setReady,
      CacheState.setChecked] at hq
    rw [← hq]
    exact hr
  · simp only [CacheState.setRec, CacheState.setReady,
      CacheState.setChecked, if_neg ha] at hq hready hch
    exact hWf a q hq hready hch

/-- Overwriting a record whose ready flag is lowered preserves the
cache invariant (the entry is masked). -/
theorem CacheWf_stale (hash : List Nat → Nat) (st : CacheState)
    (sta : SubTreeAddress) (q : STRecord) (hWf : CacheWf hash st) :
    CacheWf hash ((st.setReady sta false).setRec sta q) := by
  intro a r hq hready hch
  by_cases ha : a = sta
  · subst ha
    simp [CacheState.setRec, CacheState.setReady] at hready
  · simp only [CacheState.setRec, CacheState.setReady,
      if_neg ha] at hq hready hch
    exact hWf a r hq hready hch

/-- Registering a fresh, not yet generated record with the ready flag
lowered preserves the cache invariant. -/
theorem CacheWf_fresh (hash : List Nat → Nat) (st : CacheState)
    (sta : SubTreeAddress) (r₀ q : STRecord) (hWf : CacheWf hash st) :
    CacheWf hash ((((st.setRec sta r₀).setReady sta
      false).setChecked sta true).setRec sta q) := by
  intro a r hq hready hch
  by_cases ha : a = sta
  · subst ha
    simp [CacheState.setRec, CacheState.setReady,
      CacheState.setChecked] at hready
  · simp only [CacheState.setRec, CacheState.setReady,
      CacheState.setChecked, if_neg ha] at hq hready hch
    exact hWf a r hq hready hch

/-- The ancestor loop preserves the cache invariant, given that a
single `getSubTree` call at this fuel does. -/
theorem genAncestors_inv (hash : List Nat → Nat) (ctx : Context)
    (prims : HashPrims) (fuel : Nat)
    (hP : ∀ st sta st' r, CacheWf hash st →
      getSubTreeM hash ctx prims fuel st sta = some (st', r) →
      CacheWf hash st' ∧ hash r.body = r.checksum ∧
      st'.recs sta = some r ∧ st'.ready sta = some true ∧
      st'.checked sta = true) :
    ∀ (l : List SubTreeAddress) (st st' : CacheState), CacheWf hash st →
      genAncestorsM hash ctx prims fuel st l = some st' →
      CacheWf hash st'
  | [], st, st', hWf, h => by
    unfold genAncestorsM at h
    simp only [Option.some.injEq] at h
    rw [← h]
    exact hWf
  | sta :: rest, st, st', hWf, h => by
    unfold genAncestorsM at h
    cases hg : getSubTreeM hash ctx prims fuel st sta with
    | none => rw [hg] at h; exact absurd h (by simp)
    | some p =>
      obtain ⟨st₁, r⟩ := p
      rw [hg] at h
      exact genAncestors_inv hash ctx prims fuel hP rest st₁ st'
        (hP st sta st₁ r hWf hg).1 h

/-- The tail of `getSubTree` after the tree area has been generated
returns a record hashing to its checksum, stores it at the requested
address marked ready and checked, and preserves the cache invariant,
given that a single `getSubTree` call at this fuel does. -/
theorem materialize_inv (hash : List Nat → Nat) (ctx : Context)
    (prims : HashPrims) (fuel : Nat)
    (hP : ∀ st sta st' r, CacheWf hash st →
      getSubTreeM hash ctx prims fuel st sta = some (st', r) →
      CacheWf hash st' ∧ hash r.body = r.checksum ∧
      st'.recs sta = some r ∧ st'.ready sta = some true ∧
      st'.checked sta = true) :
    ∀ (st : CacheState) (sta : SubTreeAddress) (bodyGen : List Nat)
      (pr : Bool) (st' : CacheState) (r : STRecord), CacheWf hash st →
      materializeTail hash ctx prims fuel st sta bodyGen pr =
        some (st', r) →
      CacheWf hash st' ∧ hash r.body = r.checksum ∧
      st'.recs sta = some r ∧ st'.ready sta = some true ∧
      st'.checked sta = true := by
  intro st sta bodyGen pr st' r hWf h
  unfold materializeTail at h
  dsimp only at h
  split_ifs at h with hroot hpr
  · simp only [Option.some.injEq, Prod.mk.injEq] at h
    obtain ⟨hst, hr⟩ := h
    rw [← hst, ← hr]
    refine ⟨CacheWf_set hash st sta _ hWf rfl, rfl, ?_, ?_, ?_⟩ <;>
      simp [CacheState.setRec, CacheState.setReady, CacheState.setChecked]
  · dsimp only at h
    cases hg : getSubTreeM hash ctx prims fuel st (parentOf ctx sta) with
    | none => rw [hg] at h; exact absurd h (by simp)
    | some p =>
      obtain ⟨st₂, r₂⟩ := p
      rw [hg] at h
      dsimp only at h
      simp only [Option.some.injEq, Prod.mk.injEq] at h
      obtain ⟨hst, hr⟩ := h
      have hWf₂ := (hP st (parentOf ctx sta) st₂ r₂ hWf hg).1
      rw [← hst, ← hr]
      refine ⟨CacheWf_set hash st₂ sta _ hWf₂ rfl, rfl, ?_, ?_, ?_⟩ <;>
        simp [CacheState.setRec, CacheState.setReady,
          CacheState.setChecked]
  · cases hm : genAncestorsM hash ctx prims fuel st (ancestorList ctx sta)
      with
    | none => rw [hm] at h; exact absurd h (by simp)
    | some st₁ =>
      rw [hm] at h
      dsimp only at h
      have hWf₁ : CacheWf hash st₁ :=
        genAncestors_inv hash ctx prims fuel hP
          (ancestorList ctx sta) st st₁ hWf hm
      cases hg : getSubTreeM hash ctx prims fuel st₁ (parentOf ctx sta)
        with
      | none => rw [hg] at h; exact absurd h (by simp)
      | some p =>
        obtain ⟨st₂, r₂⟩ := p
        rw [hg] at h
        dsimp only at h
        simp only [Option.some.injEq, Prod.mk.injEq] at h
        obtain ⟨hst, hr⟩ := h
        have hWf₂ := (hP st₁ (parentOf ctx sta) st₂ r₂ hWf₁ hg).1
        rw [← hst, ← hr]
        refine ⟨CacheWf_set hash st₂ sta _ hWf₂ rfl, rfl, ?_, ?_, ?_⟩ <;>
          simp [CacheState.setRec, CacheState.setReady,
            CacheState.setChecked]

/-- The core invariance of the sequential `getSubTree`: starting from
a state satisfying the cache invariant, any successful call returns a
record hashing to its stored checksum, leaves it stored at the
requested address marked ready and checked, and preserves the
invariant. -/
theorem getSubTree_inv (hash : List Nat → Nat) (ctx : Context)
    (prims : HashPrims) :
    ∀ (fuel : Nat) (st : CacheState) (sta : SubTreeAddress)
      (st' : CacheState) (r : STRecord), CacheWf hash st →
      getSubTreeM hash ctx prims fuel st sta = some (st', r) →
      CacheWf hash st' ∧ hash r.body = r.checksum ∧
      st'.recs sta = some r ∧ st'.ready sta = some true ∧
      st'.checked sta = true := by
  intro fuel
  induction fuel with
  | zero =>
    intro st sta st' r hWf h
    exact absurd h (by simp [getSubTreeM])
  | succ f ih =>
    intro st sta st' r hWf h
    unfold getSubTreeM at h
    cases hrec : st.recs sta with
    | some r₀ =>
      cases hready : st.ready sta with
      | some b =>
        cases b with
        | true =>
          rw [hrec, hready] at h
          dsimp only at h
          split_ifs at h with hc hh
          · simp only [Option.some.injEq, Prod.mk.injEq] at h
            obtain ⟨hst, hr⟩ := h
            rw [← hst, ← hr]
            exact ⟨hWf, hWf sta r₀ hrec hready hc, hrec, hready, hc⟩
          · simp only [Option.some.injEq, Prod.mk.injEq] at h
            obtain ⟨hst, hr⟩ := h
            rw [← hst, ← hr]
            refine ⟨CacheWf_mark hash st sta r₀ hWf hrec hh, hh, ?_, ?_, ?_⟩
            · simpa [CacheState.setChecked] using hrec
            · simpa [CacheState.setChecked] using hready
            · simp [CacheState.setChecked]
          · exact materialize_inv hash ctx prims f ih
              ((st.setReady sta false).setRec sta
                ⟨treeBuf ctx prims sta ++
                  r₀.body.drop ctx.p.bareSubTreeSize, r₀.checksum⟩)
              sta _ false st' r
              (CacheWf_stale hash st sta _ hWf) h
        | false =>
          rw [hrec, hready] at h
          exact absurd h (by simp)
      | none =>
        rw [hrec, hready] at h
        exact absurd h (by simp)
    | none =>
      cases hready : st.ready sta with
      | some b =>
        rw [hrec, hready] at h
        exact absurd h (by simp)
      | none =>
        rw [hrec, hready] at h
        dsimp only at h
        exact materialize_inv hash ctx prims f ih
          ((((st.setRec sta (freshRecord ctx)).setReady sta
            false).setChecked sta true).setRec sta
            ⟨treeBuf ctx prims sta ++
              (freshRecord ctx).body.drop ctx.p.bareSubTreeSize,
              (freshRecord ctx).checksum⟩)
          sta _ _ st' r
          (CacheWf_fresh hash st sta (freshRecord ctx) _ hWf) h

/-- A successful `materializeTail` always writes a fresh checksum over
the returned body, and the body opens with the regenerated tree area
(`bodyGen` passed by the caller, or the tree area plus the fresh root
signature). -/
theorem materializeTail_shape (hash : List Nat → Nat) (ctx : Context)
    (prims : HashPrims) (fuel : Nat) (st : CacheState)
    (sta : SubTreeAddress) (bodyGen : List Nat) (pr : Bool)
    (st' : CacheState) (r : STRecord)
    (h : materializeTail hash ctx prims fuel st sta bodyGen pr =
      some (st', r)) :
    r.checksum = hash r.body ∧
    (r.body = bodyGen ∨
     r.body = treeBuf ctx prims sta ++
       (subTreeRootSig ctx prims sta).flatten) := by
  unfold materializeTail at h
  dsimp only at h
  split_ifs at h with hroot hpr
  · simp only [Option.some.injEq, Prod.mk.injEq] at h
    obtain ⟨-, hr⟩ := h
    rw [← hr]
    exact ⟨rfl, Or.inl rfl⟩
  · dsimp only at h
    cases hg : getSubTreeM hash ctx prims fuel st (parentOf ctx sta) with
    | none => rw [hg] at h; exact absurd h (by simp)
    | some p =>
      obtain ⟨st₂, r₂⟩ := p
      rw [hg] at h
      dsimp only at h
      simp only [Option.some.injEq, Prod.mk.injEq] at h
      obtain ⟨-, hr⟩ := h
      rw [← hr]
      exact ⟨rfl, Or.inr rfl⟩
  · cases hm : genAncestorsM hash ctx prims fuel st (ancestorList ctx sta)
      with
    | none => rw [hm] at h; exact absurd h (by simp)
    | some st₁ =>
      rw [hm] at h
      dsimp only at h
      cases hg : getSubTreeM hash ctx prims fuel st₁ (parentOf ctx sta)
        with
      | none => rw [hg] at h; exact absurd h (by simp)
      | some p =>
        obtain ⟨st₂, r₂⟩ := p
        rw [hg] at h
        dsimp only at h
        simp only [Option.some.injEq, Prod.mk.injEq] at h
        obtain ⟨-, hr⟩ := h
        rw [← hr]
        exact ⟨rfl, Or.inr rfl⟩

/-- Claim C2: the first use in a process lifetime of `getSubTree` on a
loaded record (stored, ready, not yet checked) recomputes the checksum
function over the record body and compares it with the stored
checksum: on a match the stored record is returned and only marked
checked, on a mismatch the subtree is regenerated with a fresh
checksum written over the regenerated body instead of an error being
returned (for the top-layer subtree the regeneration always succeeds),
and under the cache invariant every record handed back satisfies
`hash body = checksum`. -/
theorem C2_subtree_cache_integrity (hash : List Nat → Nat)
    (ctx : Context) (prims : HashPrims) (fuel : Nat) (st : CacheState)
    (sta : SubTreeAddress) :
    (∀ st' r, CacheWf hash st →
      getSubTreeM hash ctx prims fuel st sta = some (st', r) →
      hash r.body = r.checksum ∧ st'.recs sta = some r ∧
      CacheWf hash st') ∧
    (∀ r₀, st.recs sta = some r₀ → st.ready sta = some true →
      st.checked sta = false → hash r₀.body = r₀.checksum →
      getSubTreeM hash ctx prims (fuel + 1) st sta =
        some (st.setChecked sta true, r₀)) ∧
    (∀ r₀ st' r, st.recs sta = some r₀ → st.ready sta = some true →
      st.checked sta = false → hash r₀.body ≠ r₀.checksum →
      getSubTreeM hash ctx prims (fuel + 1) st sta = some (st', r) →
      r.checksum = hash r.body ∧
      ∃ tail, r.body = treeBuf ctx prims sta ++ tail) ∧
    (∀ r₀, sta.layer = ctx.p.d - 1 → st.recs sta = some r₀ →
      st.ready sta = some true → st.checked sta = false →
      hash r₀.body ≠ r₀.checksum →
      (getSubTreeM hash ctx prims (fuel + 1) st sta).isSome = true) := by
  refine ⟨?_, ?_, ?_, ?_⟩
  · intro st' r hWf h
    obtain ⟨h1, h2, h3, -, -⟩ := getSubTree_inv hash ctx prims fuel st sta
      st' r hWf h
    exact ⟨h2, h3, h1⟩
  · intro r₀ hrec hready hch hok
    unfold getSubTreeM
    rw [hrec, hready]
    dsimp only
    rw [hch, if_neg (by simp), if_pos hok]
  · intro r₀ st' r hrec hready hch hh hg
    unfold getSubTreeM at hg
    rw [hrec, hready] at hg
    dsimp only at hg
    rw [hch, if_neg (by simp), if_neg hh] at hg
    obtain ⟨hcs, hb⟩ := materializeTail_shape hash ctx prims fuel _ sta _
      false st' r hg
    refine ⟨hcs, ?_⟩
    rcases hb with hb | hb
    · exact ⟨r₀.body.drop ctx.p.bareSubTreeSize, hb⟩
    · exact ⟨(subTreeRootSig ctx prims sta).flatten, hb⟩
  · intro r₀ hroot hrec hready hch hh
    unfold getSubTreeM
    rw [hrec, hready]
    dsimp only
    rw [hch, if_neg (by simp), if_neg hh]
    unfold materializeTail
    dsimp only
    rw [if_pos hroot]
    rfl

/-- Witness for C2: in the witness context, `getSubTree` on a stored
intact record that was not yet checked returns it and marks it
checked. -/
theorem C2_subtree_cache_integrity_witness :
    getSubTreeM C2hash C9ctx demoPrims 1 C2stGood C2sta =
      some (C2stGood.setChecked C2sta true,
        ⟨List.replicate 100 1, 100⟩) :=
  (C2_subtree_cache_integrity C2hash C9ctx demoPrims 0 C2stGood
    C2sta).2.1 ⟨List.replicate 100 1, 100⟩ (by decide) (by decide)
    (by decide) (by decide)

end Xmssmt
